import Mathlib

/-!
# Eytzinger arrays (`src/src/eytzinger_array.h`)

A shallow embedding of the class templates `eytzinger_array<T,I,aligned>` and
`eytzinger_array_bfpm<T,I,aligned>`, together with the properties of the layout
construction and of the four search strategies.

Conventions of the embedding.

* The key type `T` is a type `α` with a linear order.
* The index type `I` is an unsigned integer type `bits` wide (`uint8_t`, `uint32_t`,
  `uint64_t`, ...).  A value of type `I` is a natural number below `2 ^ bits`; storing into
  an `I` reduces modulo `2 ^ bits`.  An expression over `I` is evaluated after integer
  promotion, in a type `max bits 32` wide, `int` being 32 bits wide; no such expression of
  the source overflows `int` when `bits < 32`.
* `__builtin_ffs` takes an `int`: it sees the low 32 bits of its argument, and returns zero
  when these are all zero.
* The buffer `a` is a list of cells; a cell that was never written holds `none`.
* Undefined behaviour (reading past the end of the input, reading a cell outside the
  buffer or never written, shifting by at least the width of the shifted type) is the result
  `none` (`Outcome.undefined` for a constructor).
* Loops and the recursion of `copy_data` are driven by a fuel argument, and running out of
  fuel is the result `none` too; the entry points supply `n + 1`, which the theorems show to
  be enough for every constructed array.
* `__builtin_prefetch` has no effect on the state of the program; the searches record the
  operands of the prefetches they issue next to the value they return.
* The embedding covers the default allocation discipline `aligned = false`.  Whether the
  allocation `new T[n]` succeeds is an argument of the constructor
  `eytzinger_array.construct`, which ends in `Outcome.bad_alloc` when it does not;
  `eytzinger_array.build` is the constructor where the allocation succeeds.
* A `std::string` is a sequence of `char`; the `char` of code `c` is the character
  `Char.ofNat c`.
-/

namespace fbs

/-! ## The index type -/

/-- The template parameter `I`: an unsigned integer type `bits` wide. -/
structure IndexType where
  bits : Nat
deriving DecidableEq, Repr

namespace IndexType

/-- The value `std::numeric_limits<I>::max()`. -/
def max (I : IndexType) : Nat := 2 ^ I.bits - 1

/-- Conversion of a non-negative value to `I`. -/
def wrap (I : IndexType) (v : Nat) : Nat := v % 2 ^ I.bits

/-- Width of the type in which an expression over `I` is evaluated (integer promotion). -/
def arithBits (I : IndexType) : Nat := Nat.max I.bits 32

/-- Value of a non-negative expression over `I` in the promoted type. -/
def arith (I : IndexType) (v : Nat) : Nat := v % 2 ^ I.arithBits

/-- The operator `~` in the promoted type. -/
def bnot (I : IndexType) (v : Nat) : Nat := 2 ^ I.arithBits - 1 - v % 2 ^ I.arithBits

end IndexType

/-- Number of trailing zero bits of `x`, looking at no more than `k` bits. -/
def count_trailing_zeros : Nat → Nat → Nat
  | 0, _ => 0
  | k + 1, x => if x % 2 = 1 then 0 else 1 + count_trailing_zeros k (x / 2)

/-- The builtin `__builtin_ffs(int)`: its argument is converted to the 32-bit `int`;
the result is one plus the index of the least significant 1-bit, or zero for zero. -/
def builtin_ffs (x : Nat) : Nat :=
  if x % 2 ^ 32 = 0 then 0 else count_trailing_zeros 32 (x % 2 ^ 32) + 1

/-! ## The data model -/

/-- The members `a` and `n` of `base_array<T,I>`. -/
structure eytzinger_array (α : Type) where
  a : List (Option α)
  n : Nat
deriving DecidableEq, Repr

/-- The class `eytzinger_array_bfpm`: the base object and the member `mask`. -/
structure eytzinger_array_bfpm (α : Type) where
  base : eytzinger_array α
  mask : Nat
deriving DecidableEq, Repr

/-- What a constructor call produces. -/
inductive Outcome (β : Type) where
  | ok (v : β)
  | out_of_range (what : String)
  | bad_alloc
  | undefined
deriving DecidableEq, Repr

/-- The read `a[i]`. -/
def eytzinger_array.read {α : Type} (A : eytzinger_array α) (i : Nat) : Option α :=
  match A.a[i]? with
  | some (some v) => some v
  | _ => none

/-- The constant `multiplier = 64/sizeof(T)`. -/
def multiplier (I : IndexType) (sizeofT : Nat) : Nat := I.wrap (64 / sizeofT)

/-- The constant `offset = multiplier + multiplier/2 - 1`. -/
def offset (I : IndexType) (sizeofT : Nat) : Nat :=
  I.wrap (multiplier I sizeofT + multiplier I sizeofT / 2 + 2 ^ I.bits - 1)

/-! ## Construction -/

/-- The member function `copy_data(a0, i)` on a buffer of `n` cells: the state is the rest of
the input and the buffer. -/
def copy_data {α : Type} (I : IndexType) (n : Nat) :
    Nat → List α → List (Option α) → Nat → Option (List α × List (Option α))
  | 0, _, _, _ => none
  | fuel + 1, a0, a, i =>
    if i ≥ n then some (a0, a)
    else
      match copy_data I n fuel a0 a (I.wrap (2 * i + 1)) with
      | none => none
      | some (a1, b) =>
        match a1 with
        | [] => none
        | v :: a2 => copy_data I n fuel a2 (b.set i (some v)) (I.wrap (2 * i + 2))

/-- The characters that `ss << n0` inserts for `n0` of type `I`.  The 8-bit unsigned type is
`unsigned char`, a character type: its value is inserted as the single character of that
code.  A value of a wider type is inserted as its decimal digits. -/
def stream_index (I : IndexType) (n0 : Nat) : String :=
  if I.bits = 8 then String.singleton (Char.ofNat n0) else toString n0

/-- The text of the exception thrown by the constructor:
`ss << "array length " << n0 << " is too big, use a larger I class"`. -/
def too_big_message (I : IndexType) (n0 : Nat) : String :=
  "array length " ++ stream_index I n0 ++ " is too big, use a larger I class"

/-- The constructor `eytzinger_array(a0, n0)`; `available` tells whether the allocation
`new T[n]` succeeds (it throws `std::bad_alloc` when it does not). -/
def eytzinger_array.construct {α : Type} (I : IndexType) (available : Bool) (a0 : List α)
    (n0 : Nat) : Outcome (eytzinger_array α) :=
  if n0 > I.max / 2 then Outcome.out_of_range (too_big_message I n0)
  else
    match available with
    | false => Outcome.bad_alloc
    | true =>
      match copy_data I n0 (n0 + 1) a0 (List.replicate n0 none) 0 with
      | none => Outcome.undefined
      | some (_, a) => Outcome.ok ⟨a, n0⟩

/-- The constructor `eytzinger_array(a0, n0)` where the allocation succeeds. -/
def eytzinger_array.build {α : Type} (I : IndexType) (a0 : List α) (n0 : Nat) :
    Outcome (eytzinger_array α) :=
  eytzinger_array.construct I true a0 n0

/-- The loop `for (mask = 1; mask <= n; mask <<= 1) {}`. -/
def mask_loop (I : IndexType) (n : Nat) : Nat → Nat → Option Nat
  | 0, _ => none
  | fuel + 1, mask => if mask ≤ n then mask_loop I n fuel (I.wrap (mask * 2)) else some mask

/-- The constructor `eytzinger_array_bfpm(a0, n0)` where the allocation succeeds. -/
def eytzinger_array_bfpm.build {α : Type} (I : IndexType) (a0 : List α) (n0 : Nat) :
    Outcome (eytzinger_array_bfpm α) :=
  match eytzinger_array.build I a0 n0 with
  | Outcome.out_of_range what => Outcome.out_of_range what
  | Outcome.bad_alloc => Outcome.bad_alloc
  | Outcome.undefined => Outcome.undefined
  | Outcome.ok A =>
    match mask_loop I A.n (A.n + 2) 1 with
    | none => Outcome.undefined
    | some mask => Outcome.ok ⟨A, I.wrap (mask + 2 ^ I.bits - 1)⟩

/-! ## Searching -/

/-- The two statements after each search loop:
`I j = (i+1) >> __builtin_ffs(~(i+1)); return (j == 0) ? n : j-1;`. -/
def index_recovery (I : IndexType) (n i : Nat) : Option Nat :=
  let v := I.arith (i + 1)
  let s := builtin_ffs (I.bnot v)
  if I.arithBits ≤ s then none
  else
    let j := I.wrap (v / 2 ^ s)
    some (if j = 0 then n else I.wrap (j - 1))

/-- How a search loop ends: by `return i` inside the loop, or by leaving the loop at `i`. -/
inductive LoopEnd where
  | returned (i : Nat)
  | left_loop (i : Nat)
deriving DecidableEq, Repr

/-- The loop of `_branchy_search`. -/
def branchy_loop {α : Type} [LinearOrder α] (I : IndexType) (A : eytzinger_array α) (x : α) :
    Nat → Nat → Option LoopEnd
  | 0, _ => none
  | fuel + 1, i =>
    if i < A.n then
      match A.read i with
      | none => none
      | some v =>
        if x < v then branchy_loop I A x fuel (I.wrap (2 * i + 1))
        else if x > v then branchy_loop I A x fuel (I.wrap (2 * i + 2))
        else some (LoopEnd.returned i)
    else some (LoopEnd.left_loop i)

/-- The member function `_branchy_search(x)`. -/
def _branchy_search {α : Type} [LinearOrder α] (I : IndexType) (A : eytzinger_array α) (x : α) :
    Option Nat :=
  match branchy_loop I A x (A.n + 1) 0 with
  | none => none
  | some (LoopEnd.returned i) => some i
  | some (LoopEnd.left_loop i) => index_recovery I A.n i

/-- The loop shared by `_branchfree_search<prefetch>` and `eytzinger_array_bfpm::search`:
`hint i` is the operand of `__builtin_prefetch` at position `i`, if there is one.  The state
is the position and the list of prefetch operands issued so far. -/
def branchfree_loop {α : Type} [LinearOrder α] (I : IndexType) (A : eytzinger_array α)
    (hint : Nat → Option Nat) (x : α) : Nat → Nat → List Nat → Option (Nat × List Nat)
  | 0, _, _ => none
  | fuel + 1, i, hints =>
    if i < A.n then
      match A.read i with
      | none => none
      | some v =>
        branchfree_loop I A hint x fuel
          (if x ≤ v then I.wrap (2 * i + 1) else I.wrap (2 * i + 2))
          (match hint i with
           | some h => hints ++ [h]
           | none => hints)
    else some (i, hints)

/-- The operand `multiplier*i + offset` of the prefetch in `_branchfree_search<true>`. -/
def prefetch_operand (I : IndexType) (sizeofT : Nat) (i : Nat) : Nat :=
  I.arith (multiplier I sizeofT * i + offset I sizeofT)

/-- The operand `(multiplier*i + offset)&mask` of the prefetch in
`eytzinger_array_bfpm::search`. -/
def masked_prefetch_operand (I : IndexType) (sizeofT : Nat) (mask i : Nat) : Nat :=
  prefetch_operand I sizeofT i &&& mask

/-- The member function `_branchfree_search<prefetch>(x)`, with the prefetches it issues. -/
def _branchfree_search_run {α : Type} [LinearOrder α] (I : IndexType) (sizeofT : Nat)
    (prefetch : Bool) (A : eytzinger_array α) (x : α) : Option (Nat × List Nat) :=
  match branchfree_loop I A
      (fun i => if prefetch then some (prefetch_operand I sizeofT i) else none)
      x (A.n + 1) 0 [] with
  | none => none
  | some (i, hints) =>
    match index_recovery I A.n i with
    | none => none
    | some r => some (r, hints)

/-- The value returned by `_branchfree_search<prefetch>(x)`. -/
def _branchfree_search {α : Type} [LinearOrder α] (I : IndexType) (sizeofT : Nat)
    (prefetch : Bool) (A : eytzinger_array α) (x : α) : Option Nat :=
  (_branchfree_search_run I sizeofT prefetch A x).map Prod.fst

/-- The member function `branchfree_search(x)`. -/
def branchfree_search {α : Type} [LinearOrder α] (I : IndexType) (sizeofT : Nat)
    (A : eytzinger_array α) (x : α) : Option Nat :=
  _branchfree_search I sizeofT false A x

/-- The member function `branchfree_prefetch_search(x)`. -/
def branchfree_prefetch_search {α : Type} [LinearOrder α] (I : IndexType) (sizeofT : Nat)
    (A : eytzinger_array α) (x : α) : Option Nat :=
  _branchfree_search I sizeofT true A x

/-- The member function `eytzinger_array::search(x)`. -/
def search {α : Type} [LinearOrder α] (I : IndexType) (A : eytzinger_array α) (x : α) :
    Option Nat :=
  _branchy_search I A x

/-- The member function `eytzinger_array_bfpm::search(x)`, with the prefetches it issues. -/
def eytzinger_array_bfpm.search_run {α : Type} [LinearOrder α] (I : IndexType) (sizeofT : Nat)
    (B : eytzinger_array_bfpm α) (x : α) : Option (Nat × List Nat) :=
  match branchfree_loop I B.base
      (fun i => some (masked_prefetch_operand I sizeofT B.mask i)) x (B.base.n + 1) 0 [] with
  | none => none
  | some (i, hints) =>
    match index_recovery I B.base.n i with
    | none => none
    | some r => some (r, hints)

/-- The value returned by `eytzinger_array_bfpm::search(x)`. -/
def eytzinger_array_bfpm.search {α : Type} [LinearOrder α] (I : IndexType) (sizeofT : Nat)
    (B : eytzinger_array_bfpm α) (x : α) : Option Nat :=
  (B.search_run I sizeofT x).map Prod.fst

/-! ## The implicit tree and the notions used to state the properties -/

/-- In-order traversal of the implicit tree over the buffer: the empty list when `i >= n`,
and otherwise the traversal from `2i+1`, then `a[i]`, then the traversal from `2i+2`. -/
def inorder {α : Type} (A : eytzinger_array α) (i : Nat) : List (Option α) :=
  if i ≥ A.n then [] else inorder A (2 * i + 1) ++ [A.read i] ++ inorder A (2 * i + 2)
termination_by A.n - i
decreasing_by all_goals omega

/-- The positions of the subtree rooted at `i`, in the order of the in-order traversal. -/
def inorder_positions (n i : Nat) : List Nat :=
  if i ≥ n then [] else inorder_positions n (2 * i + 1) ++ i :: inorder_positions n (2 * i + 2)
termination_by n - i
decreasing_by all_goals omega

/-- Position `p` lies in the subtree rooted at position `i`. -/
def InSubtree (i p : Nat) : Prop :=
  ∃ d, (i + 1) * 2 ^ d ≤ p + 1 ∧ p + 1 < (i + 2) * 2 ^ d

/-- The node at which the path from the root to position `i` took its last left step:
`last_left (2p+1) = p`, `last_left (2p+2) = last_left p`, and there is none for the root. -/
def last_left : Nat → Option Nat
  | 0 => none
  | i + 1 => if i % 2 = 0 then some (i / 2) else last_left (i / 2)

/-- Every cell of the buffer holds a key. -/
def eytzinger_array.Filled {α : Type} (A : eytzinger_array α) : Prop :=
  ∀ p, p < A.n → ∃ v, A.read p = some v

/-- The keys met by the in-order traversal of the implicit tree are non-decreasing. -/
def eytzinger_array.Sorted {α : Type} [LinearOrder α] (A : eytzinger_array α) : Prop :=
  (inorder_positions A.n 0).Pairwise
    (fun p q => ∀ u v, A.read p = some u → A.read q = some v → u ≤ v)

/-- The buffer holds the keys `xs`, laid out so that the in-order traversal of the implicit
tree meets them in the order of `xs`. -/
def eytzinger_array.LaidOut {α : Type} (A : eytzinger_array α) (xs : List α) : Prop :=
  (inorder_positions A.n 0).map A.read = xs.map some

/-- The array sizes for which the index recovery is exact at every exit position: at most
`2^30 - 2` elements, or at most `2^31 - 2` for an index type wider than 32 bits. -/
def recovery_safe (I : IndexType) (n : Nat) : Prop :=
  2 * n + 2 < 2 ^ 31 ∨ (32 < I.bits ∧ 2 * n + 2 < 2 ^ 32)

instance (I : IndexType) (n : Nat) : Decidable (recovery_safe I n) := by
  unfold recovery_safe
  infer_instance

/-- Index `r` is a lower bound of `x`: it is `n` when every key is below `x`, and otherwise
a position that holds the smallest key that is at least `x`. -/
def eytzinger_array.IsLowerBound {α : Type} [LinearOrder α] (A : eytzinger_array α) (x : α)
    (r : Nat) : Prop :=
  (r = A.n ∧ ∀ p, p < A.n → ∀ u, A.read p = some u → u < x) ∨
  (r < A.n ∧ ∃ u, A.read r = some u ∧ x ≤ u ∧
    ∀ p, p < A.n → ∀ w, A.read p = some w → x ≤ w → u ≤ w)

/-- When a search can rely on the index recovery: the array is small enough for it to be
exact everywhere, or the index type has at most 32 bits and some key is at least `x`. -/
def search_exact {α : Type} [LinearOrder α] (I : IndexType) (A : eytzinger_array α) (x : α) :
    Prop :=
  recovery_safe I A.n ∨ (I.bits ≤ 32 ∧ ∃ p, p < A.n ∧ ∃ u, A.read p = some u ∧ x ≤ u)

/-- The 8-bit unsigned index type. -/
def uint8_t : IndexType := ⟨8⟩

/-- The 32-bit unsigned index type. -/
def uint32_t : IndexType := ⟨32⟩

/-- The 64-bit unsigned index type. -/
def uint64_t : IndexType := ⟨64⟩

/-! ## Traces and notions for the internal properties -/

/-- The values that `mask` takes in the loop `for (mask = 1; mask <= n; mask <<= 1) {}`,
in order, the last one being the value on which the loop ends. -/
def mask_trace (I : IndexType) (n : Nat) : Nat → Nat → List Nat
  | 0, _ => []
  | fuel + 1, mask => mask :: (if mask ≤ n then mask_trace I n fuel (I.wrap (mask * 2)) else [])

/-- The successive values of `i` at the test `i < n` of the loop of `_branchy_search`. -/
def branchy_positions {α : Type} [LinearOrder α] (I : IndexType) (A : eytzinger_array α)
    (x : α) : Nat → Nat → List Nat
  | 0, _ => []
  | fuel + 1, i =>
    i :: (if i < A.n then
      match A.read i with
      | none => []
      | some v =>
        if x < v then branchy_positions I A x fuel (I.wrap (2 * i + 1))
        else if x > v then branchy_positions I A x fuel (I.wrap (2 * i + 2))
        else []
    else [])

/-- The successive values of `i` at the test `i < n` of the loop of the branch-free
searches. -/
def branchfree_positions {α : Type} [LinearOrder α] (I : IndexType) (A : eytzinger_array α)
    (x : α) : Nat → Nat → List Nat
  | 0, _ => []
  | fuel + 1, i =>
    i :: (if i < A.n then
      match A.read i with
      | none => []
      | some v =>
        branchfree_positions I A x fuel
          (if x ≤ v then I.wrap (2 * i + 1) else I.wrap (2 * i + 2))
    else [])

/-- The position carried by the end of a branchy loop. -/
def LoopEnd.position : LoopEnd → Nat
  | LoopEnd.returned i => i
  | LoopEnd.left_loop i => i

/-- The member function `copy_data(a0, i)` with a log of its assignments `a[i] = *a0++`:
each entry is the position written and the input element read for it, in the order of
execution. -/
def copy_data_log {α : Type} (I : IndexType) (n : Nat) :
    Nat → List α → List (Option α) → Nat → List (Nat × α) →
      Option (List α × List (Option α) × List (Nat × α))
  | 0, _, _, _, _ => none
  | fuel + 1, a0, a, i, log =>
    if i ≥ n then some (a0, a, log)
    else
      match copy_data_log I n fuel a0 a (I.wrap (2 * i + 1)) log with
      | none => none
      | some (a1, b, log1) =>
        match a1 with
        | [] => none
        | v :: a2 =>
          copy_data_log I n fuel a2 (b.set i (some v)) (I.wrap (2 * i + 2)) (log1 ++ [(i, v)])

/-- A step of a search loop: to the left child `2i+1` or to the right child `2i+2`. -/
inductive Step where
  | left
  | right
deriving DecidableEq, Repr

/-- The position reached from `i` by a path of steps. -/
def walk : Nat → List Step → Nat
  | i, [] => i
  | i, Step.left :: rest => walk (2 * i + 1) rest
  | i, Step.right :: rest => walk (2 * i + 2) rest

/-- The positions at which a path from `i` takes its steps, in order. -/
def path_positions : Nat → List Step → List Nat
  | _, [] => []
  | i, Step.left :: rest => i :: path_positions (2 * i + 1) rest
  | i, Step.right :: rest => i :: path_positions (2 * i + 2) rest

/-- The node at which a path from `i` takes its last left step, `acc` standing for the steps
before `i`. -/
def last_left_node : Nat → List Step → Option Nat → Option Nat
  | _, [], acc => acc
  | i, Step.left :: rest, _ => last_left_node (2 * i + 1) rest (some i)
  | i, Step.right :: rest, acc => last_left_node (2 * i + 2) rest acc

/-- A path from the root that ends outside a buffer of `n` cells after steps taken inside
it. -/
def IsExitPath (n : Nat) (path : List Step) : Prop :=
  (∀ p ∈ path_positions 0 path, p < n) ∧ n ≤ walk 0 path

instance (n : Nat) (path : List Step) : Decidable (IsExitPath n path) := by
  unfold IsExitPath
  infer_instance

/-- Number of trailing one bits of `v`, looking at no more than `k` bits. -/
def count_trailing_ones : Nat → Nat → Nat
  | 0, _ => 0
  | k + 1, v => if v % 2 = 1 then 1 + count_trailing_ones k (v / 2) else 0

/-- Number of trailing one bits of `v`. -/
def trailing_ones (v : Nat) : Nat := count_trailing_ones (v + 1) v

/-- The index recovery as the specification words it: shift `i+1` right by the number `t` of
its trailing one bits, subtract 1 from the shifted value to obtain `j`, return `N` if
`j == 0` and `j-1` otherwise; the subtraction is that of the index type. -/
def index_recovery_as_described (I : IndexType) (n i : Nat) : Nat :=
  let t := trailing_ones (i + 1)
  let j := I.wrap ((i + 1) / 2 ^ t + 2 ^ I.bits - 1)
  if j = 0 then n else I.wrap (j - 1)

/-- The index recovery as the code does it, where `__builtin_ffs` is exact: shift `i+1`
right by one more than the number of its trailing one bits to obtain `j`, return `N` if
`j == 0` and `j-1` otherwise. -/
def index_recovery_shift (n i : Nat) : Nat :=
  let j := (i + 1) / 2 ^ (trailing_ones (i + 1) + 1)
  if j = 0 then n else j - 1

/-! ## Properties -/

theorem inorder_positions_of_ge {n i : Nat} (h : n ≤ i) : inorder_positions n i = [] := by
  rw [inorder_positions]; simp [h]

theorem inorder_positions_of_lt {n i : Nat} (h : i < n) :
    inorder_positions n i =
      inorder_positions n (2 * i + 1) ++ i :: inorder_positions n (2 * i + 2) := by
  rw [inorder_positions]; simp [Nat.not_le.mpr h]

theorem inorder_eq_map {α : Type} (A : eytzinger_array α) (i : Nat) :
    inorder A i = (inorder_positions A.n i).map A.read := by
  generalize h : A.n - i = k
  induction k using Nat.strong_induction_on generalizing i with
  | _ k ih =>
    by_cases hi : A.n ≤ i
    · rw [inorder, inorder_positions_of_ge hi]; simp [hi]
    · have hlt : i < A.n := Nat.lt_of_not_le hi
      rw [inorder, inorder_positions_of_lt hlt]
      simp only [ge_iff_le, hi, if_false]
      rw [ih (A.n - (2 * i + 1)) (by omega) (2 * i + 1) rfl,
        ih (A.n - (2 * i + 2)) (by omega) (2 * i + 2) rfl]
      simp

theorem InSubtree.refl (i : Nat) : InSubtree i i := ⟨0, by simp, by simp⟩

theorem InSubtree.le {i p : Nat} (h : InSubtree i p) : i ≤ p := by
  obtain ⟨d, h1, _⟩ := h
  have : 1 ≤ 2 ^ d := Nat.one_le_two_pow
  nlinarith

theorem InSubtree.of_left {i p : Nat} (h : InSubtree (2 * i + 1) p) : InSubtree i p := by
  obtain ⟨d, h1, h2⟩ := h
  refine ⟨d + 1, ?_, ?_⟩
  · rw [pow_succ]; nlinarith
  · rw [pow_succ]; have : 1 ≤ 2 ^ d := Nat.one_le_two_pow; nlinarith

theorem InSubtree.of_right {i p : Nat} (h : InSubtree (2 * i + 2) p) : InSubtree i p := by
  obtain ⟨d, h1, h2⟩ := h
  refine ⟨d + 1, ?_, ?_⟩
  · rw [pow_succ]; have : 1 ≤ 2 ^ d := Nat.one_le_two_pow; nlinarith
  · rw [pow_succ]; nlinarith

theorem InSubtree.cases {i p : Nat} (h : InSubtree i p) :
    p = i ∨ InSubtree (2 * i + 1) p ∨ InSubtree (2 * i + 2) p := by
  obtain ⟨d, h1, h2⟩ := h
  cases d with
  | zero => left; simp at h1 h2; omega
  | succ d =>
    right
    rw [pow_succ] at h1 h2
    by_cases hc : p + 1 < (2 * i + 3) * 2 ^ d
    · left; exact ⟨d, by nlinarith, by nlinarith⟩
    · right; exact ⟨d, by nlinarith, by nlinarith⟩

theorem InSubtree.left_right_disjoint {i p : Nat} (h1 : InSubtree (2 * i + 1) p)
    (h2 : InSubtree (2 * i + 2) p) : False := by
  obtain ⟨d, a1, a2⟩ := h1
  obtain ⟨e, b1, b2⟩ := h2
  rcases Nat.lt_trichotomy d e with hlt | heq | hgt
  · obtain ⟨k, rfl⟩ := Nat.exists_eq_add_of_lt hlt
    have : 2 ^ (d + k + 1) = 2 ^ d * 2 ^ k * 2 := by ring
    rw [this] at b1
    have hk : 1 ≤ 2 ^ k := Nat.one_le_two_pow
    have hd : 1 ≤ 2 ^ d := Nat.one_le_two_pow
    have : 2 ^ d ≤ 2 ^ d * 2 ^ k := Nat.le_mul_of_pos_right _ (by positivity)
    nlinarith
  · subst heq; nlinarith
  · obtain ⟨k, rfl⟩ := Nat.exists_eq_add_of_lt hgt
    have : 2 ^ (e + k + 1) = 2 ^ e * 2 ^ k * 2 := by ring
    rw [this] at a1
    have hk : 1 ≤ 2 ^ k := Nat.one_le_two_pow
    have hd : 1 ≤ 2 ^ e := Nat.one_le_two_pow
    have : 2 ^ e ≤ 2 ^ e * 2 ^ k := Nat.le_mul_of_pos_right _ (by positivity)
    nlinarith

theorem InSubtree.of_root (p : Nat) : InSubtree 0 p := by
  refine ⟨Nat.log 2 (p + 1), ?_, ?_⟩
  · simpa using Nat.pow_log_le_self 2 (Nat.succ_ne_zero p)
  · have := Nat.lt_pow_succ_log_self (by norm_num : 1 < 2) (p + 1)
    rw [pow_succ] at this; omega

theorem mem_inorder_positions {n i p : Nat} :
    p ∈ inorder_positions n i ↔ p < n ∧ InSubtree i p := by
  generalize h : n - i = k
  induction k using Nat.strong_induction_on generalizing i with
  | _ k ih =>
    by_cases hi : n ≤ i
    · rw [inorder_positions_of_ge hi]
      simp only [List.not_mem_nil, false_iff, not_and]
      intro hp hs
      have := hs.le
      omega
    · have hlt : i < n := Nat.lt_of_not_le hi
      rw [inorder_positions_of_lt hlt]
      simp only [List.mem_append, List.mem_cons]
      rw [ih (n - (2 * i + 1)) (by omega) rfl, ih (n - (2 * i + 2)) (by omega) rfl]
      constructor
      · rintro (⟨h1, h2⟩ | rfl | ⟨h1, h2⟩)
        · exact ⟨h1, h2.of_left⟩
        · exact ⟨hlt, InSubtree.refl _⟩
        · exact ⟨h1, h2.of_right⟩
      · rintro ⟨h1, h2⟩
        rcases h2.cases with rfl | h3 | h3
        · right; left; rfl
        · left; exact ⟨h1, h3⟩
        · right; right; exact ⟨h1, h3⟩

theorem nodup_inorder_positions (n i : Nat) : (inorder_positions n i).Nodup := by
  generalize h : n - i = k
  induction k using Nat.strong_induction_on generalizing i with
  | _ k ih =>
    by_cases hi : n ≤ i
    · rw [inorder_positions_of_ge hi]; exact List.nodup_nil
    · have hlt : i < n := Nat.lt_of_not_le hi
      rw [inorder_positions_of_lt hlt]
      have hL := ih (n - (2 * i + 1)) (by omega) (2 * i + 1) rfl
      have hR := ih (n - (2 * i + 2)) (by omega) (2 * i + 2) rfl
      rw [List.nodup_append]
      refine ⟨hL, ?_, ?_⟩
      · rw [List.nodup_cons]
        refine ⟨?_, hR⟩
        intro hm
        have := (mem_inorder_positions.mp hm).2.le
        omega
      · intro p hp1 hp2
        rw [List.mem_cons] at hp2
        rcases hp2 with rfl | hp2
        · have := (mem_inorder_positions.mp hp1).2.le
          omega
        · exact InSubtree.left_right_disjoint (mem_inorder_positions.mp hp1).2
            (mem_inorder_positions.mp hp2).2

theorem inorder_positions_perm (n : Nat) : (inorder_positions n 0).Perm (List.range n) := by
  rw [List.perm_ext_iff_of_nodup (nodup_inorder_positions n 0) (List.nodup_range n)]
  intro p
  rw [mem_inorder_positions, List.mem_range]
  exact ⟨fun h => h.1, fun h => ⟨h, InSubtree.of_root p⟩⟩

theorem length_inorder_positions (n : Nat) : (inorder_positions n 0).length = n := by
  rw [(inorder_positions_perm n).length_eq, List.length_range]

theorem IndexType.wrap_of_le_max (I : IndexType) {v : Nat} (h : v ≤ I.max) : I.wrap v = v := by
  unfold IndexType.wrap IndexType.max at *
  have : 0 < 2 ^ I.bits := by positivity
  exact Nat.mod_eq_of_lt (by omega)

theorem IndexType.wrap_left (I : IndexType) {n i : Nat} (hn : n ≤ I.max / 2) (hi : i < n) :
    I.wrap (2 * i + 1) = 2 * i + 1 := by
  apply I.wrap_of_le_max; omega

theorem IndexType.wrap_right (I : IndexType) {n i : Nat} (hn : n ≤ I.max / 2) (hi : i < n) :
    I.wrap (2 * i + 2) = 2 * i + 2 := by
  apply I.wrap_of_le_max; omega

theorem take_of_drop_eq_cons {α : Type} {a0 a2 : List α} {v : α} {l : Nat} (r : Nat)
    (h : a0.drop l = v :: a2) : a0.take (l + (r + 1)) = a0.take l ++ v :: a2.take r := by
  rw [List.take_add, h, List.take_succ_cons]

theorem drop_of_drop_eq_cons {α : Type} {a0 a2 : List α} {v : α} {l : Nat} (r : Nat)
    (h : a0.drop l = v :: a2) : a0.drop (l + (r + 1)) = a2.drop r := by
  rw [← List.drop_drop, h, List.drop_succ_cons]

theorem exists_drop_eq_cons {α : Type} {a0 : List α} {l : Nat} (h : l < a0.length) :
    ∃ v a2, a0.drop l = v :: a2 ∧ a2.length = a0.length - (l + 1) := by
  refine ⟨a0[l], a0.drop (l + 1), List.drop_eq_getElem_cons h, ?_⟩
  simp

/-- The effect of `copy_data(a0, i)`: it consumes as many input elements as the subtree
rooted at `i` has positions, writes them to these positions in in-order, and leaves every
other cell alone. -/
theorem copy_data_spec {α : Type} (I : IndexType) (n : Nat) (hn : n ≤ I.max / 2) :
    ∀ (fuel i : Nat) (a0 : List α) (b : List (Option α)),
      n - i < fuel → b.length = n → (inorder_positions n i).length ≤ a0.length →
      ∃ b1, copy_data I n fuel a0 b i = some (a0.drop (inorder_positions n i).length, b1) ∧
        b1.length = n ∧
        (∀ p, p ∉ inorder_positions n i → b1[p]? = b[p]?) ∧
        (inorder_positions n i).map (fun p => b1[p]?) =
          (a0.take (inorder_positions n i).length).map (fun v => some (some v)) := by
  intro fuel
  induction fuel with
  | zero => intro i a0 b h; omega
  | succ f ih =>
    intro i a0 b hf hb hlen
    by_cases hi : n ≤ i
    · refine ⟨b, ?_, hb, fun _ _ => rfl, ?_⟩
      · simp [copy_data, hi, inorder_positions_of_ge hi]
      · simp [inorder_positions_of_ge hi]
    · have hlt : i < n := Nat.lt_of_not_le hi
      rw [inorder_positions_of_lt hlt] at hlen ⊢
      simp only [List.length_append, List.length_cons] at hlen ⊢
      obtain ⟨b1, e1, l1, u1, m1⟩ := ih (2 * i + 1) a0 b (by omega) hb (by omega)
      obtain ⟨v, a2, hdrop, hlen2⟩ :=
        exists_drop_eq_cons (show (inorder_positions n (2 * i + 1)).length < a0.length by omega)
      obtain ⟨b2, e2, l2, u2, m2⟩ := ih (2 * i + 2) a2 (b1.set i (some v))
        (by omega) (by simpa using l1) (by omega)
      refine ⟨b2, ?_, l2, ?_, ?_⟩
      · rw [copy_data]
        simp only [ge_iff_le, hi, if_false]
        rw [I.wrap_left hn hlt, I.wrap_right hn hlt, e1]
        simp only [hdrop]
        rw [e2, drop_of_drop_eq_cons _ hdrop]
      · intro p hp
        simp only [List.mem_append, List.mem_cons, not_or] at hp
        rw [u2 p hp.2.2, List.getElem?_set_ne (Ne.symm hp.2.1), u1 p hp.1]
      · have hiL : i ∉ inorder_positions n (2 * i + 1) := fun hm => by
          have := (mem_inorder_positions.mp hm).2.le
          omega
        have hiR : i ∉ inorder_positions n (2 * i + 2) := fun hm => by
          have := (mem_inorder_positions.mp hm).2.le
          omega
        have hL : (inorder_positions n (2 * i + 1)).map (fun p => b2[p]?) =
            (inorder_positions n (2 * i + 1)).map (fun p => b1[p]?) := by
          apply List.map_congr_left
          intro p hp
          have hpR : p ∉ inorder_positions n (2 * i + 2) := fun hm =>
            InSubtree.left_right_disjoint (mem_inorder_positions.mp hp).2
              (mem_inorder_positions.mp hm).2
          have hpi : i ≠ p := fun h => hiL (h ▸ hp)
          rw [u2 p hpR, List.getElem?_set_ne hpi]
        have hI : b2[i]? = some (some v) := by
          rw [u2 i hiR, List.getElem?_set_self (by omega)]
        rw [List.map_append, List.map_cons, hL, m1, hI, m2, take_of_drop_eq_cons _ hdrop,
          List.map_append, List.map_cons]

theorem last_left_zero : last_left 0 = none := by rw [last_left]

theorem last_left_left (p : Nat) : last_left (2 * p + 1) = some p := by
  rw [last_left]; simp

theorem last_left_right (p : Nat) : last_left (2 * p + 2) = last_left p := by
  rw [last_left]
  have h1 : (2 * p + 1) % 2 ≠ 0 := by omega
  have h2 : (2 * p + 1) / 2 = p := by omega
  simp [h1, h2]

/-- If `i + 1` ends in a zero bit followed by `t` one bits, `q` being the bits above them,
the last left step of the path to `i` was taken at `q - 1`; there is none when `q = 0`. -/
theorem last_left_of_bits (t : Nat) : ∀ (i q : Nat), i + 1 = q * 2 ^ (t + 1) + (2 ^ t - 1) →
    last_left i = if q = 0 then none else some (q - 1) := by
  induction t with
  | zero =>
    intro i q h
    simp at h
    have hq : q ≠ 0 := by rintro rfl; simp at h
    have : i = 2 * (q - 1) + 1 := by omega
    rw [this, last_left_left]; simp [hq]
  | succ t ih =>
    intro i q h
    have h2 : 2 ^ (t + 1 + 1) = 2 * 2 ^ (t + 1) := by ring
    have h3 : 2 ^ (t + 1) = 2 * 2 ^ t := by ring
    have hpos : 1 ≤ 2 ^ t := Nat.one_le_two_pow
    by_cases hi : i = 0
    · subst hi
      have hq : q = 0 := by
        by_contra hq
        have : 1 ≤ q := Nat.pos_of_ne_zero hq
        have : 2 ^ (t + 1 + 1) ≤ q * 2 ^ (t + 1 + 1) := Nat.le_mul_of_pos_left _ this
        omega
      simp [hq, last_left_zero]
    · have hodd : (i + 1) % 2 = 1 := by
        rw [h, h2, h3]
        have : q * (2 * (2 * 2 ^ t)) + (2 * 2 ^ t - 1) = 2 * (q * (2 * 2 ^ t) + (2 ^ t - 1)) + 1 := by
          have : q * (2 * (2 * 2 ^ t)) = 2 * (q * (2 * 2 ^ t)) := by ring
          omega
        omega
      obtain ⟨p, rfl⟩ : ∃ p, i = 2 * p + 2 := ⟨(i - 2) / 2, by omega⟩
      rw [last_left_right]
      apply ih
      rw [h2, h3] at h
      rw [h3]
      have : q * (2 * (2 * 2 ^ t)) = 2 * (q * (2 * 2 ^ t)) := by ring
      omega

theorem two_mul_add_one_mod (a m : Nat) (hm : 0 < m) :
    (2 * a + 1) % (2 * m) = 2 * (a % m) + 1 := by
  have h := Nat.div_add_mod a m
  have hlt := Nat.mod_lt a hm
  have e : 2 * a + 1 = (2 * m) * (a / m) + (2 * (a % m) + 1) := by
    have : 2 * m * (a / m) = 2 * (m * (a / m)) := by ring
    omega
  rw [e, Nat.mul_add_mod, Nat.mod_eq_of_lt (by omega)]

/-- The trailing zero bits of the complement of `u` are the trailing one bits of `u`. -/
theorem count_trailing_zeros_compl (k : Nat) : ∀ u, u < 2 ^ k - 1 →
    count_trailing_zeros k (2 ^ k - 1 - u) < k ∧
      u % 2 ^ (count_trailing_zeros k (2 ^ k - 1 - u) + 1) =
        2 ^ count_trailing_zeros k (2 ^ k - 1 - u) - 1 := by
  induction k with
  | zero => intro u h; simp at h
  | succ k ih =>
    intro u hu
    have h2 : 2 ^ (k + 1) = 2 * 2 ^ k := by ring
    have hpos : 1 ≤ 2 ^ k := Nat.one_le_two_pow
    rw [count_trailing_zeros]
    by_cases he : u % 2 = 0
    · have : (2 ^ (k + 1) - 1 - u) % 2 = 1 := by omega
      simp [this, he]
    · have hx : ¬ (2 ^ (k + 1) - 1 - u) % 2 = 1 := by omega
      have hd : (2 ^ (k + 1) - 1 - u) / 2 = 2 ^ k - 1 - u / 2 := by omega
      simp only [hx, if_false, hd]
      obtain ⟨h1, h3⟩ := ih (u / 2) (by omega)
      refine ⟨by omega, ?_⟩
      generalize count_trailing_zeros k (2 ^ k - 1 - u / 2) = t at h1 h3 ⊢
      have e1 : 2 ^ (1 + t + 1) = 2 * 2 ^ (t + 1) := by ring
      have e2 : 2 ^ (1 + t) = 2 * 2 ^ t := by ring
      have hpt : 1 ≤ 2 ^ t := Nat.one_le_two_pow
      rw [e1, e2]
      have hu2 : u = 2 * (u / 2) + 1 := by omega
      have : u % (2 * 2 ^ (t + 1)) = 2 * (u / 2 % 2 ^ (t + 1)) + 1 := by
        conv_lhs => rw [hu2]
        exact two_mul_add_one_mod _ _ (by positivity)
      omega

theorem IndexType.le_arithBits (I : IndexType) : I.bits ≤ I.arithBits :=
  Nat.le_max_left _ _

theorem IndexType.arithBits_ge (I : IndexType) : 32 ≤ I.arithBits :=
  Nat.le_max_right _ _

theorem IndexType.arith_of_lt (I : IndexType) {v : Nat} (h : v < 2 ^ I.bits) : I.arith v = v := by
  unfold IndexType.arith
  exact Nat.mod_eq_of_lt (lt_of_lt_of_le h (Nat.pow_le_pow_right (by norm_num) I.le_arithBits))

theorem IndexType.wrap_of_lt (I : IndexType) {v : Nat} (h : v < 2 ^ I.bits) : I.wrap v = v :=
  Nat.mod_eq_of_lt h

/-- The low 32 bits of `~v` are the complement of the low 32 bits of `v`. -/
theorem IndexType.bnot_mod (I : IndexType) {v : Nat} (hv : v < 2 ^ I.arithBits) :
    I.bnot v % 2 ^ 32 = 2 ^ 32 - 1 - v % 2 ^ 32 := by
  unfold IndexType.bnot
  rw [Nat.mod_eq_of_lt hv]
  obtain ⟨d, hd⟩ := Nat.exists_eq_add_of_le I.arithBits_ge
  rw [hd, pow_add] at hv ⊢
  generalize 2 ^ d = K at hv ⊢
  have hq : v / 2 ^ 32 < K := Nat.div_lt_of_lt_mul hv
  have hm := Nat.div_add_mod v (2 ^ 32)
  have hr := Nat.mod_lt v (show 0 < 2 ^ 32 by norm_num)
  obtain ⟨c, rfl⟩ := Nat.exists_eq_add_of_lt hq
  have e : 2 ^ 32 * (v / 2 ^ 32 + c + 1) - 1 - v = 2 ^ 32 * c + (2 ^ 32 - 1 - v % 2 ^ 32) := by
    have : 2 ^ 32 * (v / 2 ^ 32 + c + 1) = 2 ^ 32 * (v / 2 ^ 32) + 2 ^ 32 * c + 2 ^ 32 := by ring
    omega
  rw [e, Nat.mul_add_mod, Nat.mod_eq_of_lt (by omega)]

/-- What `__builtin_ffs(~v)` returns when the low 32 bits of `v` are not all ones: one more
than a number `t < 32` such that `v` ends in a zero bit followed by `t` one bits. -/
theorem builtin_ffs_bnot (I : IndexType) {v : Nat} (hv : v < 2 ^ I.arithBits)
    (h : v % 2 ^ 32 ≠ 2 ^ 32 - 1) :
    ∃ t, builtin_ffs (I.bnot v) = t + 1 ∧ t < 32 ∧ v % 2 ^ (t + 1) = 2 ^ t - 1 := by
  have hr := Nat.mod_lt v (show 0 < 2 ^ 32 by norm_num)
  obtain ⟨h1, h2⟩ := count_trailing_zeros_compl 32 (v % 2 ^ 32) (by omega)
  refine ⟨count_trailing_zeros 32 (2 ^ 32 - 1 - v % 2 ^ 32), ?_, h1, ?_⟩
  · unfold builtin_ffs
    rw [I.bnot_mod hv, if_neg (by omega)]
  · rw [← h2]
    exact (Nat.mod_mod_of_dvd v (Nat.pow_dvd_pow 2 (by omega))).symm

/-- What `__builtin_ffs(~v)` returns when the low 32 bits of `v` are all ones. -/
theorem builtin_ffs_bnot_ones (I : IndexType) {v : Nat} (hv : v < 2 ^ I.arithBits)
    (h : v % 2 ^ 32 = 2 ^ 32 - 1) : builtin_ffs (I.bnot v) = 0 := by
  unfold builtin_ffs
  rw [I.bnot_mod hv, h]; rfl

/-- The index recovery is exact when `i + 1` does not wrap and ends in fewer than 31 one
bits (fewer than 32 for an index type wider than 32 bits): it returns the node of the last
left step, and `n` if there is none. -/
theorem index_recovery_eq (I : IndexType) (n i : Nat) (hi : i < 2 ^ I.bits)
    (hv : i + 1 < 2 ^ I.arithBits)
    (h32 : (i + 1) % 2 ^ 32 ≠ 2 ^ 32 - 1) (h31 : I.bits ≤ 32 → i + 1 ≠ 2 ^ 31 - 1) :
    index_recovery I n i = some ((last_left i).getD n) := by
  obtain ⟨t, hs, ht, hmod⟩ := builtin_ffs_bnot I hv h32
  have hdm := Nat.div_add_mod (i + 1) (2 ^ (t + 1))
  rw [hmod] at hdm
  have hpos : 1 ≤ 2 ^ t := Nat.one_le_two_pow
  have hll := last_left_of_bits t i ((i + 1) / 2 ^ (t + 1)) (by rw [Nat.mul_comm]; exact hdm.symm)
  have hub : ¬ I.arithBits ≤ t + 1 := by
    intro hle
    have h1 := I.arithBits_ge
    have ht31 : t = 31 := by omega
    have hb : I.bits ≤ 32 := by have := I.le_arithBits; omega
    subst ht31
    have hW : I.arithBits = 32 := by omega
    rw [hW] at hv
    apply h31 hb
    rw [Nat.mod_eq_of_lt hv] at hmod
    exact hmod
  have hq : (i + 1) / 2 ^ (t + 1) ≤ i := by
    have : (i + 1) / 2 ^ (t + 1) ≤ (i + 1) / 2 :=
      Nat.div_le_div_left (by rw [pow_succ]; omega) (by norm_num)
    omega
  unfold index_recovery
  simp only [IndexType.arith, Nat.mod_eq_of_lt hv, hs, hub, if_false]
  rw [I.wrap_of_lt (by omega), hll]
  by_cases hz : (i + 1) / 2 ^ (t + 1) = 0
  · simp [hz]
  · simp only [hz, if_false, Option.getD_some]
    rw [I.wrap_of_lt (by omega)]

/-- The index recovery when the low 32 bits of `i + 1` are all ones: `__builtin_ffs`
returns zero, nothing is shifted out, and the value returned is `i` itself. -/
theorem index_recovery_of_ones (I : IndexType) (n i : Nat) (hi : i + 1 < 2 ^ I.bits)
    (h32 : (i + 1) % 2 ^ 32 = 2 ^ 32 - 1) : index_recovery I n i = some i := by
  have hv : i + 1 < 2 ^ I.arithBits :=
    lt_of_lt_of_le hi (Nat.pow_le_pow_right (by norm_num) I.le_arithBits)
  have h1 := I.arithBits_ge
  unfold index_recovery
  simp only [I.arith_of_lt hi, builtin_ffs_bnot_ones I hv h32]
  rw [if_neg (by omega)]
  simp only [pow_zero, Nat.div_one]
  rw [I.wrap_of_lt hi, if_neg (by omega), I.wrap_of_lt (by omega)]
  rfl

/-- The index recovery when the promoted type is 32 bits wide and `i + 1 = 2^31 - 1`:
the shift count is 32, the width of the shifted type. -/
theorem index_recovery_undefined (I : IndexType) (n i : Nat) (hb : I.bits ≤ 32)
    (hi : i + 1 = 2 ^ 31 - 1) : index_recovery I n i = none := by
  have hW : I.arithBits = 32 := by unfold IndexType.arithBits; exact Nat.max_eq_right hb
  have hffs : builtin_ffs (2 ^ 32 - 1 - (2 ^ 31 - 1) % 2 ^ 32) = 32 := by decide
  unfold index_recovery IndexType.arith IndexType.bnot
  simp only [hW, hi, Nat.mod_mod, hffs, le_refl, if_true]

theorem pairwise_mid_left {r : Nat → Nat → Prop} {l1 L R l2 : List Nat} {i : Nat}
    (h : (l1 ++ (L ++ i :: R) ++ l2).Pairwise r) : ∀ p ∈ L, r p i := by
  intro p hp
  have hsub : List.Sublist ([p, i]) (l1 ++ (L ++ i :: R) ++ l2) := by
    have h1 : List.Sublist ([p]) (L) := List.singleton_sublist.mpr hp
    have h2 : List.Sublist ([i]) (i :: R) := List.singleton_sublist.mpr (List.mem_cons_self _ _)
    have h3 : List.Sublist ([p] ++ [i]) (L ++ i :: R) := List.Sublist.append h1 h2
    exact (h3.trans (List.sublist_append_right l1 _)).trans (List.sublist_append_left _ l2)
  have := h.sublist hsub
  simpa using this

theorem pairwise_mid_right {r : Nat → Nat → Prop} {l1 L R l2 : List Nat} {i : Nat}
    (h : (l1 ++ (L ++ i :: R) ++ l2).Pairwise r) : ∀ p ∈ R, r i p := by
  intro p hp
  have hsub : List.Sublist ([i, p]) (l1 ++ (L ++ i :: R) ++ l2) := by
    have h1 : List.Sublist ([p]) (R) := List.singleton_sublist.mpr hp
    have h2 : List.Sublist ([i, p]) (i :: R) := List.Sublist.cons₂ _ h1
    have h3 : List.Sublist ([i, p]) (L ++ i :: R) := h2.trans (List.sublist_append_right _ _)
    exact (h3.trans (List.sublist_append_right l1 _)).trans (List.sublist_append_left _ l2)
  have := h.sublist hsub
  simpa using this

/-- The loop of the branch-free searches, from position `i` with the keys before the subtree
of `i` all below `x` and the keys after it all at least `x`: it leaves the loop at a
position `e` with `n ≤ e ≤ 2n`, and splits the in-order sequence of positions into the keys
below `x` and the keys at least `x`, the latter starting at the node of the last left
step. -/
theorem branchfree_loop_spec {α : Type} [LinearOrder α] (I : IndexType) (A : eytzinger_array α)
    (hint : Nat → Option Nat) (x : α) (hn : A.n ≤ I.max / 2) (hf : A.Filled) (hs : A.Sorted) :
    ∀ (fuel i : Nat) (hints pre post : List Nat), A.n - i < fuel → i ≤ 2 * A.n →
      inorder_positions A.n 0 = pre ++ inorder_positions A.n i ++ post →
      (∀ p ∈ pre, ∀ u, A.read p = some u → u < x) →
      (∀ p ∈ post, ∀ u, A.read p = some u → x ≤ u) →
      post.head? = last_left i →
      ∃ e hints1 pre1 post1, branchfree_loop I A hint x fuel i hints = some (e, hints1) ∧
        A.n ≤ e ∧ e ≤ 2 * A.n ∧ inorder_positions A.n 0 = pre1 ++ post1 ∧
        (∀ p ∈ pre1, ∀ u, A.read p = some u → u < x) ∧
        (∀ p ∈ post1, ∀ u, A.read p = some u → x ≤ u) ∧
        post1.head? = last_left e := by
  intro fuel
  induction fuel with
  | zero => intro i _ _ _ h; omega
  | succ f ih =>
    intro i hints pre post hfu hi2 hsplit hpre hpost hhead
    by_cases hi : A.n ≤ i
    · refine ⟨i, hints, pre, post, ?_, hi, hi2, ?_, hpre, hpost, hhead⟩
      · rw [branchfree_loop, if_neg (by omega)]
      · simpa [inorder_positions_of_ge hi] using hsplit
    · have hlt : i < A.n := Nat.lt_of_not_le hi
      obtain ⟨v, hv⟩ := hf i hlt
      rw [inorder_positions_of_lt hlt] at hsplit
      have hsorted := hs
      unfold eytzinger_array.Sorted at hsorted
      rw [hsplit] at hsorted
      rw [branchfree_loop, if_pos hlt, hv]
      simp only [I.wrap_left hn hlt, I.wrap_right hn hlt]
      by_cases hx : x ≤ v
      · simp only [hx, if_true]
        apply ih (2 * i + 1) _ pre (i :: inorder_positions A.n (2 * i + 2) ++ post)
          (by omega) (by omega)
        · rw [hsplit]; simp
        · exact hpre
        · intro p hp u hu
          simp only [List.cons_append, List.mem_cons, List.mem_append] at hp
          rcases hp with rfl | hp | hp
          · rw [hv] at hu; cases hu; exact hx
          · exact le_trans hx (pairwise_mid_right hsorted p hp v u hv hu)
          · exact hpost p hp u hu
        · simp [last_left_left]
      · simp only [hx, if_false]
        apply ih (2 * i + 2) _ (pre ++ inorder_positions A.n (2 * i + 1) ++ [i]) post
          (by omega) (by omega)
        · rw [hsplit]; simp
        · intro p hp u hu
          simp only [List.mem_append, List.mem_singleton] at hp
          rcases hp with (hp | hp) | rfl
          · exact hpre p hp u hu
          · exact lt_of_le_of_lt (pairwise_mid_left hsorted p hp u v hu hv) (not_le.mp hx)
          · rw [hv] at hu; cases hu; exact not_le.mp hx
        · exact hpost
        · rw [last_left_right]; exact hhead

/-- The loop of `_branchy_search`: it either returns a position holding `x`, or leaves the
loop at a position `e` with `n ≤ e ≤ 2n` and splits the in-order sequence of positions into
the keys below `x` and the keys above `x`, the latter starting at the node of the last left
step. -/
theorem branchy_loop_spec {α : Type} [LinearOrder α] (I : IndexType) (A : eytzinger_array α)
    (x : α) (hn : A.n ≤ I.max / 2) (hf : A.Filled) (hs : A.Sorted) :
    ∀ (fuel i : Nat) (pre post : List Nat), A.n - i < fuel → i ≤ 2 * A.n →
      inorder_positions A.n 0 = pre ++ inorder_positions A.n i ++ post →
      (∀ p ∈ pre, ∀ u, A.read p = some u → u < x) →
      (∀ p ∈ post, ∀ u, A.read p = some u → x < u) →
      post.head? = last_left i →
      (∃ r, branchy_loop I A x fuel i = some (LoopEnd.returned r) ∧ r < A.n ∧
        A.read r = some x) ∨
      (∃ e pre1 post1, branchy_loop I A x fuel i = some (LoopEnd.left_loop e) ∧
        A.n ≤ e ∧ e ≤ 2 * A.n ∧ inorder_positions A.n 0 = pre1 ++ post1 ∧
        (∀ p ∈ pre1, ∀ u, A.read p = some u → u < x) ∧
        (∀ p ∈ post1, ∀ u, A.read p = some u → x < u) ∧
        post1.head? = last_left e) := by
  intro fuel
  induction fuel with
  | zero => intro i _ _ h; omega
  | succ f ih =>
    intro i pre post hfu hi2 hsplit hpre hpost hhead
    by_cases hi : A.n ≤ i
    · right
      refine ⟨i, pre, post, ?_, hi, hi2, ?_, hpre, hpost, hhead⟩
      · rw [branchy_loop, if_neg (by omega)]
      · simpa [inorder_positions_of_ge hi] using hsplit
    · have hlt : i < A.n := Nat.lt_of_not_le hi
      obtain ⟨v, hv⟩ := hf i hlt
      rw [inorder_positions_of_lt hlt] at hsplit
      have hsorted := hs
      unfold eytzinger_array.Sorted at hsorted
      rw [hsplit] at hsorted
      rw [branchy_loop, if_pos hlt, hv]
      simp only [I.wrap_left hn hlt, I.wrap_right hn hlt]
      by_cases hx : x < v
      · simp only [hx, if_true]
        apply ih (2 * i + 1) pre (i :: inorder_positions A.n (2 * i + 2) ++ post)
          (by omega) (by omega)
        · rw [hsplit]; simp
        · exact hpre
        · intro p hp u hu
          simp only [List.cons_append, List.mem_cons, List.mem_append] at hp
          rcases hp with rfl | hp | hp
          · rw [hv] at hu; cases hu; exact hx
          · exact lt_of_lt_of_le hx (pairwise_mid_right hsorted p hp v u hv hu)
          · exact hpost p hp u hu
        · simp [last_left_left]
      · by_cases hx2 : x > v
        · simp only [hx, hx2, if_false, if_true]
          apply ih (2 * i + 2) (pre ++ inorder_positions A.n (2 * i + 1) ++ [i]) post
            (by omega) (by omega)
          · rw [hsplit]; simp
          · intro p hp u hu
            simp only [List.mem_append, List.mem_singleton] at hp
            rcases hp with (hp | hp) | rfl
            · exact hpre p hp u hu
            · exact lt_of_le_of_lt (pairwise_mid_left hsorted p hp u v hu hv) hx2
            · rw [hv] at hu; cases hu; exact hx2
          · exact hpost
          · rw [last_left_right]; exact hhead
        · left
          simp only [hx, hx2, if_false]
          refine ⟨i, rfl, hlt, ?_⟩
          rw [hv, le_antisymm (not_lt.mp hx2) (not_lt.mp hx)]

theorem mem_inorder_positions_zero {n p : Nat} : p ∈ inorder_positions n 0 ↔ p < n := by
  rw [mem_inorder_positions]
  exact ⟨fun h => h.1, fun h => ⟨h, InSubtree.of_root p⟩⟩

theorem eytzinger_array.LaidOut.length {α : Type} {A : eytzinger_array α} {xs : List α}
    (h : A.LaidOut xs) : xs.length = A.n := by
  have := congrArg List.length h
  simpa [length_inorder_positions] using this.symm

theorem eytzinger_array.LaidOut.read_mem {α : Type} {A : eytzinger_array α} {xs : List α}
    (h : A.LaidOut xs) {p : Nat} (hp : p < A.n) : ∃ v, v ∈ xs ∧ A.read p = some v := by
  have h1 : A.read p ∈ (inorder_positions A.n 0).map A.read :=
    List.mem_map_of_mem _ (mem_inorder_positions_zero.mpr hp)
  rw [h, List.mem_map] at h1
  obtain ⟨v, hv, e⟩ := h1
  exact ⟨v, hv, e.symm⟩

theorem eytzinger_array.LaidOut.mem_read {α : Type} {A : eytzinger_array α} {xs : List α}
    (h : A.LaidOut xs) {v : α} (hv : v ∈ xs) : ∃ p, p < A.n ∧ A.read p = some v := by
  have h1 : some v ∈ xs.map some := List.mem_map_of_mem _ hv
  rw [← h, List.mem_map] at h1
  obtain ⟨p, hp, e⟩ := h1
  exact ⟨p, mem_inorder_positions_zero.mp hp, e⟩

theorem eytzinger_array.LaidOut.filled {α : Type} {A : eytzinger_array α} {xs : List α}
    (h : A.LaidOut xs) : A.Filled := by
  intro p hp
  obtain ⟨v, _, e⟩ := h.read_mem hp
  exact ⟨v, e⟩

theorem eytzinger_array.LaidOut.pairwise {α : Type} {A : eytzinger_array α} {xs : List α}
    (h : A.LaidOut xs) {r : α → α → Prop} (hs : xs.Pairwise r) :
    (inorder_positions A.n 0).Pairwise
      (fun p q => ∀ u v, A.read p = some u → A.read q = some v → r u v) := by
  have h1 : (xs.map some).Pairwise (fun o1 o2 => ∀ u v, o1 = some u → o2 = some v → r u v) := by
    rw [List.pairwise_map]
    refine hs.imp ?_
    intro a b hab u v hu hv
    cases hu; cases hv; exact hab
  rw [← h, List.pairwise_map] at h1
  exact h1

theorem eytzinger_array.LaidOut.sorted {α : Type} [LinearOrder α] {A : eytzinger_array α}
    {xs : List α} (h : A.LaidOut xs) (hs : xs.Pairwise (fun u v => u ≤ v)) : A.Sorted :=
  h.pairwise hs

/-- The constructor where the allocation succeeds, spelled out. -/
theorem build_unfold {α : Type} (I : IndexType) (a0 : List α) (n0 : Nat) :
    eytzinger_array.build I a0 n0 =
      if n0 > I.max / 2 then Outcome.out_of_range (too_big_message I n0)
      else
        match copy_data I n0 (n0 + 1) a0 (List.replicate n0 none) 0 with
        | none => Outcome.undefined
        | some (_, a) => Outcome.ok ⟨a, n0⟩ := rfl

/-- The text of the exception for an index type that is not 8 bits wide: `n0` in decimal. -/
theorem too_big_message_decimal (I : IndexType) (n0 : Nat) (h : I.bits ≠ 8) :
    too_big_message I n0 =
      "array length " ++ toString n0 ++ " is too big, use a larger I class" := by
  unfold too_big_message stream_index
  rw [if_neg h]

/-- The text of the exception for the 8-bit index type: `n0` as one character. -/
theorem too_big_message_uint8_t :
    too_big_message uint8_t 128 = "array length \x80 is too big, use a larger I class" ∧
    too_big_message uint32_t 128 = "array length 128 is too big, use a larger I class" := by
  decide

/-- The constructor on a count within the capacity and an input that has that many
elements: it succeeds, and the buffer holds the first `n0` input elements in the Eytzinger
layout. -/
theorem build_spec {α : Type} (I : IndexType) (a0 : List α) (n0 : Nat) (hn : n0 ≤ I.max / 2)
    (hlen : n0 ≤ a0.length) :
    ∃ A, eytzinger_array.build I a0 n0 = Outcome.ok A ∧ A.n = n0 ∧ A.a.length = n0 ∧
      A.LaidOut (a0.take n0) := by
  obtain ⟨b, e, hl, _, hm⟩ := copy_data_spec I n0 hn (n0 + 1) 0 a0 (List.replicate n0 none)
    (by omega) (by simp) (by rw [length_inorder_positions]; exact hlen)
  refine ⟨⟨b, n0⟩, ?_, rfl, hl, ?_⟩
  · rw [build_unfold, if_neg (by omega), e]
  · rw [length_inorder_positions] at hm
    unfold eytzinger_array.LaidOut
    have := congrArg (List.map (fun (c : Option (Option α)) =>
      match c with
      | some (some v) => some v
      | _ => none)) hm
    simp only [List.map_map] at this
    exact this

/-- A constructed array: what `build` says about its result. -/
theorem build_ok {α : Type} (I : IndexType) (a0 : List α) (n0 : Nat) (A : eytzinger_array α)
    (hlen : n0 ≤ a0.length) (h : eytzinger_array.build I a0 n0 = Outcome.ok A) :
    n0 ≤ I.max / 2 ∧ A.n = n0 ∧ A.a.length = n0 ∧ A.LaidOut (a0.take n0) := by
  by_cases hn : n0 ≤ I.max / 2
  · obtain ⟨B, e, h1, h2, h3⟩ := build_spec I a0 n0 hn hlen
    rw [e] at h
    cases h
    exact ⟨hn, h1, h2, h3⟩
  · rw [build_unfold, if_pos (by omega)] at h
    cases h

theorem last_left_all_ones (k i : Nat) (h : i + 1 = 2 ^ k - 1) : last_left i = none := by
  have := last_left_of_bits k i 0 (by simpa using h)
  simpa using this

theorem max_lt_pow (I : IndexType) : I.max < 2 ^ I.bits := by
  unfold IndexType.max
  have : 0 < 2 ^ I.bits := by positivity
  omega

/-- An exit position and its successor are representable. -/
theorem exit_position_bounds (I : IndexType) (n e : Nat) (hn : n ≤ I.max / 2)
    (he : e ≤ 2 * n) : e < 2 ^ I.bits ∧ e + 1 < 2 ^ I.arithBits := by
  have hmax := max_lt_pow I
  refine ⟨by omega, ?_⟩
  have hW : 2 ^ I.bits ≤ 2 ^ I.arithBits := Nat.pow_le_pow_right (by norm_num) I.le_arithBits
  have h32 : 2 ^ 32 ≤ 2 ^ I.arithBits := Nat.pow_le_pow_right (by norm_num) I.arithBits_ge
  by_cases hb : I.bits = 0
  · have : I.max = 0 := by unfold IndexType.max; rw [hb]; rfl
    omega
  · have hodd : I.max % 2 = 1 := by
      unfold IndexType.max
      obtain ⟨k, hk⟩ := Nat.exists_eq_succ_of_ne_zero hb
      rw [hk, pow_succ]
      have : 1 ≤ 2 ^ k := Nat.one_le_two_pow
      omega
    omega

/-- The index recovery at an exit position of a search loop. -/
theorem index_recovery_at_exit (I : IndexType) (n e : Nat) (hn : n ≤ I.max / 2)
    (he : e ≤ 2 * n) (h : recovery_safe I n ∨ (I.bits ≤ 32 ∧ last_left e ≠ none)) :
    index_recovery I n e = some ((last_left e).getD n) := by
  obtain ⟨hlt, hv⟩ := exit_position_bounds I n e hn he
  apply index_recovery_eq I n e hlt hv
  · rcases h with (h | ⟨_, h⟩) | ⟨hb, hl⟩
    · rw [Nat.mod_eq_of_lt (by omega)]; omega
    · rw [Nat.mod_eq_of_lt (by omega)]; omega
    · intro hc
      by_cases h32 : e + 1 < 2 ^ 32
      · rw [Nat.mod_eq_of_lt h32] at hc
        exact hl (last_left_all_ones 32 e hc)
      · have : 2 ^ I.bits ≤ 2 ^ 32 := Nat.pow_le_pow_right (by norm_num) hb
        have : e + 1 = 2 ^ 32 := by omega
        rw [this] at hc
        norm_num at hc
  · intro hb hc
    rcases h with (h | ⟨h, _⟩) | ⟨_, hl⟩
    · omega
    · omega
    · exact hl (last_left_all_ones 31 e hc)

/-- A split of the in-order sequence into the keys below `x` and the keys at least `x`
determines a lower bound: the first position of the second part. -/
theorem is_lower_bound_of_split {α : Type} [LinearOrder α] (A : eytzinger_array α) (x : α)
    (hf : A.Filled) (hs : A.Sorted) (pre post : List Nat)
    (hsplit : inorder_positions A.n 0 = pre ++ post)
    (hpre : ∀ p ∈ pre, ∀ u, A.read p = some u → u < x)
    (hpost : ∀ p ∈ post, ∀ u, A.read p = some u → x ≤ u) :
    A.IsLowerBound x (post.head?.getD A.n) := by
  cases post with
  | nil =>
    left
    refine ⟨rfl, ?_⟩
    intro p hp u hu
    have : p ∈ pre := by
      have := mem_inorder_positions_zero.mpr hp
      rw [hsplit] at this; simpa using this
    exact hpre p this u hu
  | cons c rest =>
    right
    have hc : c < A.n := by
      apply mem_inorder_positions_zero.mp
      rw [hsplit]; simp
    obtain ⟨u, hu⟩ := hf c hc
    refine ⟨hc, u, hu, hpost c (List.mem_cons_self _ _) u hu, ?_⟩
    intro p hp w hw hxw
    have hmem := mem_inorder_positions_zero.mpr hp
    rw [hsplit] at hmem
    simp only [List.mem_append, List.mem_cons] at hmem
    unfold eytzinger_array.Sorted at hs
    rw [hsplit] at hs
    rcases hmem with hm | rfl | hm
    · exact absurd (hpre p hm w hw) (not_lt.mpr hxw)
    · rw [hu] at hw; cases hw; exact le_rfl
    · have h2 := (List.pairwise_append.mp hs).2.1
      exact List.rel_of_pairwise_cons h2 hm u w hu hw

/-- The position at which a branch-free loop ends does not depend on the prefetches. -/
theorem branchfree_loop_fst {α : Type} [LinearOrder α] (I : IndexType) (A : eytzinger_array α)
    (hint1 hint2 : Nat → Option Nat) (x : α) :
    ∀ (fuel i : Nat) (h1 h2 : List Nat),
      (branchfree_loop I A hint1 x fuel i h1).map Prod.fst =
        (branchfree_loop I A hint2 x fuel i h2).map Prod.fst := by
  intro fuel
  induction fuel with
  | zero => intro i h1 h2; rfl
  | succ f ih =>
    intro i h1 h2
    rw [branchfree_loop, branchfree_loop]
    by_cases hi : i < A.n
    · simp only [hi, if_true]
      cases A.read i with
      | none => rfl
      | some v => exact ih _ _ _
    · simp [hi]

/-- The value returned by a branch-free search, in terms of the loop without prefetch. -/
theorem branchfree_search_eq {α : Type} [LinearOrder α] (I : IndexType) (sizeofT : Nat)
    (prefetch : Bool) (A : eytzinger_array α) (x : α) :
    _branchfree_search I sizeofT prefetch A x =
      ((branchfree_loop I A (fun _ => none) x (A.n + 1) 0 []).map Prod.fst).bind
        (index_recovery I A.n) := by
  unfold _branchfree_search _branchfree_search_run
  have h := branchfree_loop_fst I A
    (fun i => if prefetch then some (prefetch_operand I sizeofT i) else none) (fun _ => none)
    x (A.n + 1) 0 [] []
  rw [← h]
  cases branchfree_loop I A
    (fun i => if prefetch then some (prefetch_operand I sizeofT i) else none) x (A.n + 1) 0 []
    with
  | none => rfl
  | some r =>
    obtain ⟨e, hs⟩ := r
    simp only [Option.map_some', Option.some_bind]
    cases index_recovery I A.n e <;> rfl

/-- The value returned by the masked-prefetch search, in terms of the loop without
prefetch. -/
theorem bfpm_search_eq {α : Type} [LinearOrder α] (I : IndexType) (sizeofT : Nat)
    (B : eytzinger_array_bfpm α) (x : α) :
    B.search I sizeofT x =
      ((branchfree_loop I B.base (fun _ => none) x (B.base.n + 1) 0 []).map Prod.fst).bind
        (index_recovery I B.base.n) := by
  unfold eytzinger_array_bfpm.search eytzinger_array_bfpm.search_run
  have h := branchfree_loop_fst I B.base
    (fun i => some (masked_prefetch_operand I sizeofT B.mask i)) (fun _ => none)
    x (B.base.n + 1) 0 [] []
  rw [← h]
  cases branchfree_loop I B.base
    (fun i => some (masked_prefetch_operand I sizeofT B.mask i)) x (B.base.n + 1) 0 [] with
  | none => rfl
  | some r =>
    obtain ⟨e, hs⟩ := r
    simp only [Option.map_some', Option.some_bind]
    cases index_recovery I B.base.n e <;> rfl

/-- The three branch-free strategies return the same value. -/
theorem branchfree_strategies_eq {α : Type} [LinearOrder α] (I : IndexType) (sizeofT : Nat)
    (B : eytzinger_array_bfpm α) (x : α) :
    branchfree_prefetch_search I sizeofT B.base x = branchfree_search I sizeofT B.base x ∧
      B.search I sizeofT x = branchfree_search I sizeofT B.base x := by
  unfold branchfree_prefetch_search branchfree_search
  rw [branchfree_search_eq, branchfree_search_eq, bfpm_search_eq]
  exact ⟨rfl, rfl⟩

theorem head_ne_none_of_key_ge {α : Type} [LinearOrder α] (A : eytzinger_array α) (x : α)
    (pre post : List Nat) (hsplit : inorder_positions A.n 0 = pre ++ post)
    (hpre : ∀ p ∈ pre, ∀ u, A.read p = some u → u < x)
    (h : ∃ p, p < A.n ∧ ∃ u, A.read p = some u ∧ x ≤ u) : post.head? ≠ none := by
  obtain ⟨p, hp, u, hu, hxu⟩ := h
  have hmem := mem_inorder_positions_zero.mpr hp
  rw [hsplit, List.mem_append] at hmem
  rcases hmem with hm | hm
  · exact absurd (hpre p hm u hu) (not_lt.mpr hxu)
  · cases post with
    | nil => simp at hm
    | cons c rest => simp

/-- The branch-free search without prefetch on a sorted layout: it returns the first
position, in in-order, whose key is at least `x`, and `n` if there is none. -/
theorem branchfree_search_spec {α : Type} [LinearOrder α] (I : IndexType) (sizeofT : Nat)
    (A : eytzinger_array α) (x : α) (hn : A.n ≤ I.max / 2) (hf : A.Filled) (hs : A.Sorted)
    (h : search_exact I A x) :
    ∃ pre post, inorder_positions A.n 0 = pre ++ post ∧
      (∀ p ∈ pre, ∀ u, A.read p = some u → u < x) ∧
      (∀ p ∈ post, ∀ u, A.read p = some u → x ≤ u) ∧
      branchfree_search I sizeofT A x = some (post.head?.getD A.n) := by
  obtain ⟨e, hints, pre, post, hl, he1, he2, hsplit, hpre, hpost, hhead⟩ :=
    branchfree_loop_spec I A (fun _ => none) x hn hf hs (A.n + 1) 0 [] [] [] (by omega)
      (by omega) (by simp) (by simp) (by simp) (by simp [last_left_zero])
  refine ⟨pre, post, hsplit, hpre, hpost, ?_⟩
  unfold branchfree_search
  rw [branchfree_search_eq, hl, hhead]
  simp only [Option.map_some', Option.some_bind]
  apply index_recovery_at_exit I A.n e hn he2
  rcases h with h | ⟨hb, h⟩
  · exact Or.inl h
  · right
    refine ⟨hb, ?_⟩
    rw [← hhead]
    exact head_ne_none_of_key_ge A x pre post hsplit hpre h

/-- The branchy search on a sorted layout: it returns a position holding `x`, or, when no
key equals `x`, the first position, in in-order, whose key is above `x`, and `n` if there
is none. -/
theorem branchy_search_spec {α : Type} [LinearOrder α] (I : IndexType)
    (A : eytzinger_array α) (x : α) (hn : A.n ≤ I.max / 2) (hf : A.Filled) (hs : A.Sorted)
    (h : search_exact I A x) :
    (∃ r, search I A x = some r ∧ r < A.n ∧ A.read r = some x) ∨
    (∃ pre post, inorder_positions A.n 0 = pre ++ post ∧
      (∀ p ∈ pre, ∀ u, A.read p = some u → u < x) ∧
      (∀ p ∈ post, ∀ u, A.read p = some u → x < u) ∧
      search I A x = some (post.head?.getD A.n)) := by
  rcases branchy_loop_spec I A x hn hf hs (A.n + 1) 0 [] [] (by omega)
      (by omega) (by simp) (by simp) (by simp) (by simp [last_left_zero]) with
    ⟨r, hl, hr, hx⟩ | ⟨e, pre, post, hl, he1, he2, hsplit, hpre, hpost, hhead⟩
  · left
    refine ⟨r, ?_, hr, hx⟩
    unfold search _branchy_search
    rw [hl]
  · right
    refine ⟨pre, post, hsplit, hpre, hpost, ?_⟩
    unfold search _branchy_search
    rw [hl, hhead]
    simp only
    apply index_recovery_at_exit I A.n e hn he2
    rcases h with h | ⟨hb, h⟩
    · exact Or.inl h
    · right
      refine ⟨hb, ?_⟩
      rw [← hhead]
      exact head_ne_none_of_key_ge A x pre post hsplit hpre h

/-- The branch-free search returns a lower bound. -/
theorem branchfree_search_lower_bound {α : Type} [LinearOrder α] (I : IndexType)
    (sizeofT : Nat) (A : eytzinger_array α) (x : α) (hn : A.n ≤ I.max / 2) (hf : A.Filled)
    (hs : A.Sorted) (h : search_exact I A x) :
    ∃ r, branchfree_search I sizeofT A x = some r ∧ A.IsLowerBound x r := by
  obtain ⟨pre, post, hsplit, hpre, hpost, hr⟩ := branchfree_search_spec I sizeofT A x hn hf hs h
  exact ⟨_, hr, is_lower_bound_of_split A x hf hs pre post hsplit hpre hpost⟩

/-- The branchy search returns a lower bound. -/
theorem branchy_search_lower_bound {α : Type} [LinearOrder α] (I : IndexType)
    (A : eytzinger_array α) (x : α) (hn : A.n ≤ I.max / 2) (hf : A.Filled)
    (hs : A.Sorted) (h : search_exact I A x) :
    ∃ r, search I A x = some r ∧ A.IsLowerBound x r := by
  rcases branchy_search_spec I A x hn hf hs h with
    ⟨r, hr, hlt, hx⟩ | ⟨pre, post, hsplit, hpre, hpost, hr⟩
  · refine ⟨r, hr, Or.inr ⟨hlt, x, hx, le_rfl, ?_⟩⟩
    intro p _ w _ hxw
    exact hxw
  · exact ⟨_, hr, is_lower_bound_of_split A x hf hs pre post hsplit hpre
      (fun p hp u hu => le_of_lt (hpost p hp u hu))⟩

/-- With distinct keys a lower bound is unique. -/
theorem lower_bound_unique {α : Type} [LinearOrder α] (A : eytzinger_array α) (x : α)
    (hinj : ∀ p q, p < A.n → q < A.n → ∀ u, A.read p = some u → A.read q = some u → p = q)
    (r1 r2 : Nat) (h1 : A.IsLowerBound x r1) (h2 : A.IsLowerBound x r2) : r1 = r2 := by
  rcases h1 with ⟨e1, a1⟩ | ⟨l1, u1, hu1, hx1, m1⟩ <;>
    rcases h2 with ⟨e2, a2⟩ | ⟨l2, u2, hu2, hx2, m2⟩
  · rw [e1, e2]
  · exact absurd (a1 r2 l2 u2 hu2) (not_lt.mpr hx2)
  · exact absurd (a2 r1 l1 u1 hu1) (not_lt.mpr hx1)
  · have e : u1 = u2 := le_antisymm (m1 r2 l2 u2 hu2 hx2) (m2 r1 l1 u1 hu1 hx1)
    subst e
    exact hinj r1 r2 l1 l2 u1 hu1 hu2

/-- A layout of strictly increasing keys holds every key once. -/
theorem eytzinger_array.LaidOut.read_injective {α : Type} [LinearOrder α]
    {A : eytzinger_array α} {xs : List α} (h : A.LaidOut xs)
    (hs : xs.Pairwise (fun u v => u < v)) :
    ∀ p q, p < A.n → q < A.n → ∀ u, A.read p = some u → A.read q = some u → p = q := by
  intro p q hp hq u hpu hqu
  have hpw := h.pairwise hs
  by_contra hne
  have hsym : (inorder_positions A.n 0).Pairwise (fun c d =>
      (∀ u v, A.read c = some u → A.read d = some v → u < v) ∨
      (∀ u v, A.read d = some u → A.read c = some v → u < v)) :=
    hpw.imp (fun h => Or.inl h)
  have := hsym.forall (fun c d hcd => hcd.symm) (mem_inorder_positions_zero.mpr hp)
    (mem_inorder_positions_zero.mpr hq) hne
  rcases this with h1 | h1
  · exact lt_irrefl u (h1 u u hpu hqu)
  · exact lt_irrefl u (h1 u u hqu hpu)

theorem chain_step (i j : Nat) : (2 * i + 2 + 2) * 2 ^ j - 2 = (i + 2) * 2 ^ (j + 1) - 2 := by
  rw [pow_succ]
  have : (2 * i + 2 + 2) * 2 ^ j = (i + 2) * (2 ^ j * 2) := by ring
  rw [this]

/-- A branch-free loop that meets only keys below `x` on the chain of right children of `i`
goes down this chain and leaves the loop at its first position outside the buffer. -/
theorem branchfree_loop_right_run {α : Type} [LinearOrder α] (I : IndexType)
    (A : eytzinger_array α) (hint : Nat → Option Nat) (x : α) (hn : A.n ≤ I.max / 2) :
    ∀ (k fuel i : Nat) (hints : List Nat), k < fuel →
      (∀ j, j < k → (i + 2) * 2 ^ j - 2 < A.n ∧
        ∃ u, A.read ((i + 2) * 2 ^ j - 2) = some u ∧ u < x) →
      A.n ≤ (i + 2) * 2 ^ k - 2 →
      ∃ hs, branchfree_loop I A hint x fuel i hints = some ((i + 2) * 2 ^ k - 2, hs) := by
  intro k
  induction k with
  | zero =>
    intro fuel i hints hf _ hex
    obtain ⟨f, rfl⟩ := Nat.exists_eq_succ_of_ne_zero (by omega : fuel ≠ 0)
    have hi : ¬ i < A.n := by simp at hex; omega
    refine ⟨hints, ?_⟩
    rw [branchfree_loop, if_neg hi]
    simp
  | succ k ih =>
    intro fuel i hints hf hch hex
    obtain ⟨f, rfl⟩ := Nat.exists_eq_succ_of_ne_zero (by omega : fuel ≠ 0)
    obtain ⟨h0, u, hu, hux⟩ := hch 0 (by omega)
    simp only [pow_zero, Nat.mul_one, Nat.add_sub_cancel] at h0 hu
    rw [branchfree_loop, if_pos h0, hu]
    simp only [if_neg (not_le.mpr hux), I.wrap_right hn h0]
    rw [← chain_step]
    apply ih f (2 * i + 2) _ (by omega)
    · intro j hj
      rw [chain_step]
      exact hch (j + 1) (by omega)
    · rw [chain_step]; exact hex

/-- The loop of the branchy search on a chain of right children whose keys are below `x`. -/
theorem branchy_loop_right_run {α : Type} [LinearOrder α] (I : IndexType)
    (A : eytzinger_array α) (x : α) (hn : A.n ≤ I.max / 2) :
    ∀ (k fuel i : Nat), k < fuel →
      (∀ j, j < k → (i + 2) * 2 ^ j - 2 < A.n ∧
        ∃ u, A.read ((i + 2) * 2 ^ j - 2) = some u ∧ u < x) →
      A.n ≤ (i + 2) * 2 ^ k - 2 →
      branchy_loop I A x fuel i = some (LoopEnd.left_loop ((i + 2) * 2 ^ k - 2)) := by
  intro k
  induction k with
  | zero =>
    intro fuel i hf _ hex
    obtain ⟨f, rfl⟩ := Nat.exists_eq_succ_of_ne_zero (by omega : fuel ≠ 0)
    have hi : ¬ i < A.n := by simp at hex; omega
    rw [branchy_loop, if_neg hi]
    simp
  | succ k ih =>
    intro fuel i hf hch hex
    obtain ⟨f, rfl⟩ := Nat.exists_eq_succ_of_ne_zero (by omega : fuel ≠ 0)
    obtain ⟨h0, u, hu, hux⟩ := hch 0 (by omega)
    simp only [pow_zero, Nat.mul_one, Nat.add_sub_cancel] at h0 hu
    rw [branchy_loop, if_pos h0, hu]
    simp only [if_neg (not_lt.mpr (le_of_lt hux)), gt_iff_lt, if_pos hux, I.wrap_right hn h0]
    rw [← chain_step]
    apply ih f (2 * i + 2) (by omega)
    · intro j hj
      rw [chain_step]
      exact hch (j + 1) (by omega)
    · rw [chain_step]; exact hex

/-- A query above every key, on an array whose chain of right children from the root has
`k` positions inside the buffer: all four strategies hand the exit position `2^(k+1) - 2`
to the index recovery. -/
theorem search_above_all {α : Type} [LinearOrder α] (I : IndexType) (sizeofT mask : Nat)
    (A : eytzinger_array α) (x : α) (hn : A.n ≤ I.max / 2) (hf : A.Filled)
    (hall : ∀ p, p < A.n → ∀ u, A.read p = some u → u < x) (k : Nat)
    (hk0 : ∀ j, j < k → 2 ^ (j + 1) - 2 < A.n) (hk1 : A.n ≤ 2 ^ (k + 1) - 2) :
    search I A x = index_recovery I A.n (2 ^ (k + 1) - 2) ∧
    branchfree_search I sizeofT A x = index_recovery I A.n (2 ^ (k + 1) - 2) ∧
    branchfree_prefetch_search I sizeofT A x = index_recovery I A.n (2 ^ (k + 1) - 2) ∧
    eytzinger_array_bfpm.search I sizeofT ⟨A, mask⟩ x =
      index_recovery I A.n (2 ^ (k + 1) - 2) := by
  have hpos : ∀ j, (0 + 2) * 2 ^ j - 2 = 2 ^ (j + 1) - 2 := by
    intro j; rw [pow_succ]; ring_nf
  have hkn : k < A.n + 1 := by
    by_contra hc
    have h1 := hk0 (A.n) (by omega)
    have h2 : A.n + 1 < 2 ^ (A.n + 1) := Nat.lt_two_pow _
    omega
  have hch : ∀ j, j < k → (0 + 2) * 2 ^ j - 2 < A.n ∧
      ∃ u, A.read ((0 + 2) * 2 ^ j - 2) = some u ∧ u < x := by
    intro j hj
    rw [hpos]
    obtain ⟨u, hu⟩ := hf _ (hk0 j hj)
    exact ⟨hk0 j hj, u, hu, hall _ (hk0 j hj) u hu⟩
  have hbf : branchfree_search I sizeofT A x = index_recovery I A.n (2 ^ (k + 1) - 2) := by
    unfold branchfree_search
    rw [branchfree_search_eq]
    obtain ⟨hs, e⟩ := branchfree_loop_right_run I A (fun _ => none) x hn k (A.n + 1) 0 []
      hkn hch (by rw [hpos]; exact hk1)
    rw [e, hpos]
    rfl
  obtain ⟨h1, h2⟩ := branchfree_strategies_eq I sizeofT ⟨A, mask⟩ x
  refine ⟨?_, hbf, h1.trans hbf, h2.trans hbf⟩
  unfold search _branchy_search
  rw [branchy_loop_right_run I A x hn k (A.n + 1) 0 hkn hch (by rw [hpos]; exact hk1), hpos]

theorem read_replicate {α : Type} (n : Nat) (v : α) (p : Nat) (hp : p < n) :
    (⟨List.replicate n (some v), n⟩ : eytzinger_array α).read p = some v := by
  unfold eytzinger_array.read
  simp [List.getElem?_replicate, hp]

theorem pow_chain_lt (k j : Nat) (hj : j < k) : 2 ^ (j + 1) - 2 < 2 ^ k - 1 := by
  have h1 : 2 ^ (j + 1) ≤ 2 ^ k := Nat.pow_le_pow_right (by norm_num) hj
  have h2 : 2 ≤ 2 ^ (j + 1) := by
    calc 2 = 2 ^ 1 := rfl
      _ ≤ 2 ^ (j + 1) := Nat.pow_le_pow_right (by norm_num) (by omega)
  omega

theorem three_chain_lt (k j : Nat) (hj : j < k + 1) : 3 * 2 ^ j - 2 < 3 * 2 ^ k - 1 := by
  have h1 : 2 ^ j ≤ 2 ^ k := Nat.pow_le_pow_right (by norm_num) (by omega)
  have h2 : 1 ≤ 2 ^ j := Nat.one_le_two_pow
  omega

/-- In a layout of strictly increasing keys, the keys in the left subtree of the root are
below the key of the root. -/
theorem left_subtree_lt_root {α : Type} [LinearOrder α] {A : eytzinger_array α} {xs : List α}
    (h : A.LaidOut xs) (hs : xs.Pairwise (fun u v => u < v)) (p : Nat) (hp : p < A.n)
    (hsub : InSubtree 1 p) (u v : α) (hu : A.read p = some u) (hv : A.read 0 = some v) :
    u < v := by
  have hpw := h.pairwise hs
  have h0 : 0 < A.n := by omega
  rw [inorder_positions_of_lt h0] at hpw
  have hmem : p ∈ inorder_positions A.n (2 * 0 + 1) := mem_inorder_positions.mpr ⟨hp, hsub⟩
  have hpw2 : ([] ++ (inorder_positions A.n (2 * 0 + 1) ++ 0 ::
      inorder_positions A.n (2 * 0 + 2)) ++ []).Pairwise
      (fun p q => ∀ u v, A.read p = some u → A.read q = some v → u < v) := by
    simpa using hpw
  exact pairwise_mid_left hpw2 p hmem u v hu hv

/-- A branch-free search for the key of the root, when the chain of right children of the
left child of the root holds smaller keys: the exit position is `3 * 2^k - 2`. -/
theorem branchfree_search_root_key {α : Type} [LinearOrder α] (I : IndexType) (sizeofT : Nat)
    (A : eytzinger_array α) (x : α) (hn : A.n ≤ I.max / 2) (h0 : 0 < A.n)
    (hroot : A.read 0 = some x) (k : Nat) (hk : k < A.n)
    (hch : ∀ j, j < k → 3 * 2 ^ j - 2 < A.n ∧ ∃ u, A.read (3 * 2 ^ j - 2) = some u ∧ u < x)
    (hex : A.n ≤ 3 * 2 ^ k - 2) :
    branchfree_search I sizeofT A x = index_recovery I A.n (3 * 2 ^ k - 2) := by
  unfold branchfree_search
  rw [branchfree_search_eq, branchfree_loop, if_pos h0, hroot]
  simp only [le_refl, if_true, I.wrap_left hn h0]
  obtain ⟨hs, e⟩ := branchfree_loop_right_run I A (fun _ => none) x hn k A.n (2 * 0 + 1) []
    hk hch hex
  rw [e]
  rfl

/-- The size of a subtree all of whose levels above `h` are full and whose level `h` is
empty. -/
theorem length_inorder_positions_perfect (n : Nat) : ∀ (h i : Nat),
    (h ≠ 0 → (i + 2) * 2 ^ (h - 1) - 2 < n) → n ≤ (i + 1) * 2 ^ h - 1 →
    (inorder_positions n i).length = 2 ^ h - 1 := by
  intro h
  induction h with
  | zero =>
    intro i _ h2
    rw [inorder_positions_of_ge (by simpa using h2)]
    rfl
  | succ h ih =>
    intro i h1 h2
    have h1 := h1 (by omega)
    simp only [Nat.add_sub_cancel] at h1
    have hp : 1 ≤ 2 ^ h := Nat.one_le_two_pow
    have hi : i < n := by
      have : i + 2 ≤ (i + 2) * 2 ^ h := Nat.le_mul_of_pos_right _ (by omega)
      omega
    have hs : 2 ^ (h + 1) = 2 * 2 ^ h := by rw [pow_succ]; ring
    have hL : (inorder_positions n (2 * i + 1)).length = 2 ^ h - 1 := by
      apply ih
      · intro hh
        obtain ⟨g, rfl⟩ : ∃ g, h = g + 1 := ⟨h - 1, by omega⟩
        simp only [Nat.add_sub_cancel]
        have e1 : (2 * i + 1 + 2) * 2 ^ g ≤ (i + 2) * 2 ^ (g + 1) := by
          have : (i + 2) * 2 ^ (g + 1) = (2 * i + 4) * 2 ^ g := by rw [pow_succ]; ring
          rw [this]
          exact Nat.mul_le_mul_right _ (by omega)
        exact lt_of_le_of_lt (Nat.sub_le_sub_right e1 2) h1
      · have e2 : (2 * i + 1 + 1) * 2 ^ h = (i + 1) * 2 ^ (h + 1) := by rw [pow_succ]; ring
        rw [e2]; exact h2
    have hR : (inorder_positions n (2 * i + 2)).length = 2 ^ h - 1 := by
      apply ih
      · intro hh
        obtain ⟨g, rfl⟩ : ∃ g, h = g + 1 := ⟨h - 1, by omega⟩
        simp only [Nat.add_sub_cancel]
        have : (2 * i + 2 + 2) * 2 ^ g = (i + 2) * 2 ^ (g + 1) := by rw [pow_succ]; ring
        rw [this]; exact h1
      · have e1 : (2 * i + 2 + 1) * 2 ^ h = (2 * i + 2) * 2 ^ h + 2 ^ h := by ring
        have e2 : (2 * i + 2) * 2 ^ h = (i + 1) * 2 ^ (h + 1) := by rw [pow_succ]; ring
        omega
    rw [inorder_positions_of_lt hi, List.length_append, List.length_cons, hL, hR, hs]
    omega

/-- In a layout of the keys `xs`, when the left subtree of the root has `m` positions, the
keys of the left subtree are the first `m` keys and the key of the root is the next one. -/
theorem eytzinger_array.LaidOut.split_at_root {α : Type} {A : eytzinger_array α} {xs : List α}
    (h : A.LaidOut xs) (h0 : 0 < A.n) (m : Nat)
    (hm : (inorder_positions A.n 1).length = m) :
    (inorder_positions A.n 1).map A.read = (xs.take m).map some ∧
      (A.read 0 :: (inorder_positions A.n 2).map A.read) = (xs.drop m).map some := by
  unfold eytzinger_array.LaidOut at h
  rw [inorder_positions_of_lt h0, List.map_append, List.map_cons] at h
  have hx : xs.map some = (xs.take m).map some ++ (xs.drop m).map some := by
    rw [← List.map_append, List.take_append_drop]
  rw [hx] at h
  have hlen : (List.map A.read (inorder_positions A.n (2 * 0 + 1))).length =
      ((xs.take m).map some).length := by
    have hl := congrArg List.length h
    simp only [List.length_append, List.length_map, List.length_cons, List.length_take,
      List.length_drop] at hl ⊢
    have : (inorder_positions A.n (2 * 0 + 1)).length = m := hm
    omega
  exact List.append_inj h hlen

theorem inorder_positions_one : inorder_positions 1 0 = [0] := by
  rw [inorder_positions_of_lt (by norm_num), inorder_positions_of_ge (by norm_num),
    inorder_positions_of_ge (by norm_num)]
  rfl

/-- The four search strategies on a one-element array. -/
theorem singleton_search_values {α : Type} [LinearOrder α] (I : IndexType) (sizeofT mask : Nat)
    (v x : α) (h : 1 ≤ I.max / 2) :
    search I ⟨[some v], 1⟩ x = some (if x ≤ v then 0 else 1) ∧
    branchfree_search I sizeofT ⟨[some v], 1⟩ x = some (if x ≤ v then 0 else 1) ∧
    branchfree_prefetch_search I sizeofT ⟨[some v], 1⟩ x = some (if x ≤ v then 0 else 1) ∧
    eytzinger_array_bfpm.search I sizeofT ⟨⟨[some v], 1⟩, mask⟩ x =
      some (if x ≤ v then 0 else 1) := by
  have hread : ∀ p u, p < 1 → (⟨[some v], 1⟩ : eytzinger_array α).read p = some u → u = v := by
    intro p u hp hu
    have : p = 0 := by omega
    subst this
    simp [eytzinger_array.read] at hu
    exact hu.symm
  have hf : (⟨[some v], 1⟩ : eytzinger_array α).Filled := by
    intro p hp
    have hp1 : p < 1 := hp
    have : p = 0 := by omega
    subst this
    exact ⟨v, rfl⟩
  have hs : (⟨[some v], 1⟩ : eytzinger_array α).Sorted := by
    unfold eytzinger_array.Sorted
    rw [inorder_positions_one]
    exact List.pairwise_singleton _ _
  have hex : search_exact I (⟨[some v], 1⟩ : eytzinger_array α) x :=
    Or.inl (Or.inl (by norm_num))
  have hval : ∀ r, (⟨[some v], 1⟩ : eytzinger_array α).IsLowerBound x r →
      r = if x ≤ v then 0 else 1 := by
    intro r hr
    rcases hr with ⟨e, a⟩ | ⟨l, u, hu, hxu, _⟩
    · have := a 0 (by norm_num) v rfl
      rw [if_neg (not_le.mpr this)]; exact e
    · have := hread r u l hu
      subst this
      rw [if_pos hxu]
      have : r < 1 := l
      omega
  obtain ⟨r1, e1, b1⟩ := branchy_search_lower_bound I _ x h hf hs hex
  obtain ⟨r2, e2, b2⟩ := branchfree_search_lower_bound I sizeofT _ x h hf hs hex
  obtain ⟨h1, h2⟩ := branchfree_strategies_eq I sizeofT ⟨⟨[some v], 1⟩, mask⟩ x
  rw [hval r1 b1] at e1
  rw [hval r2 b2] at e2
  exact ⟨e1, e2, h1.trans e2, h2.trans e2⟩

/-! ## The searches where the index recovery is exact, and where it is not -/

/-- The loop of the branch-free searches on any filled array: started inside `[0, 2n]`, it
leaves the loop at a position `e` with `n ≤ e ≤ 2n`, and the node of the last left step on
the way to `e`, if there is one, is a position of the buffer. -/
theorem branchfree_loop_total {α : Type} [LinearOrder α] (I : IndexType) (A : eytzinger_array α)
    (hint : Nat → Option Nat) (x : α) (hn : A.n ≤ I.max / 2) (hf : A.Filled) :
    ∀ (fuel i : Nat) (hints : List Nat), A.n - i < fuel → i ≤ 2 * A.n →
      (∀ c, last_left i = some c → c < A.n) →
      ∃ e hints1, branchfree_loop I A hint x fuel i hints = some (e, hints1) ∧
        A.n ≤ e ∧ e ≤ 2 * A.n ∧ (∀ c, last_left e = some c → c < A.n) := by
  intro fuel
  induction fuel with
  | zero => intro i _ h; omega
  | succ f ih =>
    intro i hints hfu hi2 hll
    by_cases hi : A.n ≤ i
    · refine ⟨i, hints, ?_, hi, hi2, hll⟩
      rw [branchfree_loop, if_neg (by omega)]
    · have hlt : i < A.n := Nat.lt_of_not_le hi
      obtain ⟨v, hv⟩ := hf i hlt
      rw [branchfree_loop, if_pos hlt, hv]
      simp only [I.wrap_left hn hlt, I.wrap_right hn hlt]
      by_cases hx : x ≤ v
      · simp only [hx, if_true]
        apply ih (2 * i + 1) _ (by omega) (by omega)
        intro c hc
        rw [last_left_left] at hc
        cases hc
        exact hlt
      · simp only [hx, if_false]
        apply ih (2 * i + 2) _ (by omega) (by omega)
        intro c hc
        rw [last_left_right] at hc
        exact hll c hc

/-- The loop of the branchy search on any filled array: it returns a position of the buffer
that holds `x`, or leaves the loop at a position `e` with `n ≤ e ≤ 2n`. -/
theorem branchy_loop_total {α : Type} [LinearOrder α] (I : IndexType) (A : eytzinger_array α)
    (x : α) (hn : A.n ≤ I.max / 2) (hf : A.Filled) :
    ∀ (fuel i : Nat), A.n - i < fuel → i ≤ 2 * A.n →
      (∀ c, last_left i = some c → c < A.n) →
      (∃ r, branchy_loop I A x fuel i = some (LoopEnd.returned r) ∧ r < A.n ∧
        A.read r = some x) ∨
      (∃ e, branchy_loop I A x fuel i = some (LoopEnd.left_loop e) ∧
        A.n ≤ e ∧ e ≤ 2 * A.n ∧ (∀ c, last_left e = some c → c < A.n)) := by
  intro fuel
  induction fuel with
  | zero => intro i h; omega
  | succ f ih =>
    intro i hfu hi2 hll
    by_cases hi : A.n ≤ i
    · right
      refine ⟨i, ?_, hi, hi2, hll⟩
      rw [branchy_loop, if_neg (by omega)]
    · have hlt : i < A.n := Nat.lt_of_not_le hi
      obtain ⟨v, hv⟩ := hf i hlt
      rw [branchy_loop, if_pos hlt, hv]
      simp only [I.wrap_left hn hlt, I.wrap_right hn hlt]
      by_cases hx : x < v
      · simp only [hx, if_true]
        apply ih (2 * i + 1) (by omega) (by omega)
        intro c hc
        rw [last_left_left] at hc
        cases hc
        exact hlt
      · by_cases hx2 : x > v
        · simp only [hx, hx2, if_false, if_true]
          apply ih (2 * i + 2) (by omega) (by omega)
          intro c hc
          rw [last_left_right] at hc
          exact hll c hc
        · left
          simp only [hx, hx2, if_false]
          refine ⟨i, rfl, hlt, ?_⟩
          rw [hv, le_antisymm (not_lt.mp hx2) (not_lt.mp hx)]

/-- On a filled array small enough for the index recovery to be exact, whatever the keys,
each of the four search strategies returns an index in `[0, n]`. -/
theorem search_in_range {α : Type} [LinearOrder α] (I : IndexType) (sizeofT mask : Nat)
    (A : eytzinger_array α) (x : α) (hn : A.n ≤ I.max / 2) (hf : A.Filled)
    (hsafe : recovery_safe I A.n) :
    (∃ r, search I A x = some r ∧ r ≤ A.n) ∧
    (∃ r, branchfree_search I sizeofT A x = some r ∧ r ≤ A.n ∧
      branchfree_prefetch_search I sizeofT A x = some r ∧
      eytzinger_array_bfpm.search I sizeofT ⟨A, mask⟩ x = some r) := by
  have hrange : ∀ e, e ≤ 2 * A.n → (∀ c, last_left e = some c → c < A.n) →
      ∃ r, index_recovery I A.n e = some r ∧ r ≤ A.n := by
    intro e he hll
    refine ⟨_, index_recovery_at_exit I A.n e hn he (Or.inl hsafe), ?_⟩
    cases hc : last_left e with
    | none => exact le_refl _
    | some c => exact le_of_lt (hll c hc)
  have hz : ∀ c, last_left 0 = some c → c < A.n := by
    intro c hc; rw [last_left_zero] at hc; cases hc
  constructor
  · rcases branchy_loop_total I A x hn hf (A.n + 1) 0 (by omega) (by omega) hz with
      ⟨r, hl, hr, _⟩ | ⟨e, hl, _, he, hll⟩
    · refine ⟨r, ?_, le_of_lt hr⟩
      unfold search _branchy_search
      rw [hl]
    · obtain ⟨r, hr, hle⟩ := hrange e he hll
      refine ⟨r, ?_, hle⟩
      unfold search _branchy_search
      rw [hl]
      exact hr
  · obtain ⟨e, hs, hl, _, he, hll⟩ :=
      branchfree_loop_total I A (fun _ => none) x hn hf (A.n + 1) 0 [] (by omega) (by omega) hz
    obtain ⟨r, hr, hle⟩ := hrange e he hll
    have hbf : branchfree_search I sizeofT A x = some r := by
      unfold branchfree_search
      rw [branchfree_search_eq, hl]
      exact hr
    obtain ⟨h1, h2⟩ := branchfree_strategies_eq I sizeofT ⟨A, mask⟩ x
    exact ⟨r, hbf, hle, h1.trans hbf, h2.trans hbf⟩

/-- On a sorted layout, each of the four search strategies finds a stored key: it returns a
position that holds `x`, provided the index type has at most 32 bits or the array is small
enough for the index recovery to be exact. -/
theorem search_finds_stored_key {α : Type} [LinearOrder α] (I : IndexType)
    (sizeofT mask : Nat) (A : eytzinger_array α) (x : α) (hn : A.n ≤ I.max / 2)
    (hf : A.Filled) (hs : A.Sorted) (hx : ∃ p, p < A.n ∧ A.read p = some x)
    (hI : I.bits ≤ 32 ∨ recovery_safe I A.n) :
    (∃ r, search I A x = some r ∧ r < A.n ∧ A.read r = some x) ∧
    (∃ r, branchfree_search I sizeofT A x = some r ∧ r < A.n ∧ A.read r = some x ∧
      branchfree_prefetch_search I sizeofT A x = some r ∧
      eytzinger_array_bfpm.search I sizeofT ⟨A, mask⟩ x = some r) := by
  obtain ⟨p, hp, hpx⟩ := hx
  have hex : search_exact I A x := by
    rcases hI with hb | hsafe
    · exact Or.inr ⟨hb, p, hp, x, hpx, le_rfl⟩
    · exact Or.inl hsafe
  have hval : ∀ r, A.IsLowerBound x r → r < A.n ∧ A.read r = some x := by
    intro r hr
    rcases hr with ⟨_, a⟩ | ⟨l, u, hu, hxu, m⟩
    · exact absurd (a p hp x hpx) (lt_irrefl x)
    · have := m p hp x hpx le_rfl
      rw [le_antisymm this hxu] at hu
      exact ⟨l, hu⟩
  obtain ⟨r1, e1, b1⟩ := branchy_search_lower_bound I A x hn hf hs hex
  obtain ⟨r2, e2, b2⟩ := branchfree_search_lower_bound I sizeofT A x hn hf hs hex
  obtain ⟨h1, h2⟩ := branchfree_strategies_eq I sizeofT ⟨A, mask⟩ x
  exact ⟨⟨r1, e1, hval r1 b1⟩, ⟨r2, e2, (hval r2 b2).1, (hval r2 b2).2, h1.trans e2,
    h2.trans e2⟩⟩

/-- On a sorted layout, each of the four search strategies returns a lower bound of `x`:
`n` when every key is below `x`, and otherwise a position holding the smallest key that is
at least `x`; provided the array is small enough for the index recovery to be exact, or the
index type has at most 32 bits and some key is at least `x`. -/
theorem search_lower_bound {α : Type} [LinearOrder α] (I : IndexType)
    (sizeofT mask : Nat) (A : eytzinger_array α) (x : α) (hn : A.n ≤ I.max / 2)
    (hf : A.Filled) (hs : A.Sorted) (hex : search_exact I A x) :
    (∃ r, search I A x = some r ∧ A.IsLowerBound x r) ∧
    (∃ r, branchfree_search I sizeofT A x = some r ∧ A.IsLowerBound x r ∧
      branchfree_prefetch_search I sizeofT A x = some r ∧
      eytzinger_array_bfpm.search I sizeofT ⟨A, mask⟩ x = some r) := by
  obtain ⟨r1, e1, b1⟩ := branchy_search_lower_bound I A x hn hf hs hex
  obtain ⟨r2, e2, b2⟩ := branchfree_search_lower_bound I sizeofT A x hn hf hs hex
  obtain ⟨h1, h2⟩ := branchfree_strategies_eq I sizeofT ⟨A, mask⟩ x
  exact ⟨⟨r1, e1, b1⟩, ⟨r2, e2, b2, h1.trans e2, h2.trans e2⟩⟩

/-- With `I` the 32-bit unsigned type, on an array of `2^30 - 1` keys all equal to 0 the
query 1 has no defined result in any of the four search strategies: the loop ends at
`2^31 - 2` and the index recovery shifts a 32-bit value by 32. -/
theorem search_undefined_uint32 :
    search uint32_t (⟨List.replicate (2 ^ 30 - 1) (some 0), 2 ^ 30 - 1⟩ : eytzinger_array Nat) 1
      = none ∧
    branchfree_search uint32_t 4
      (⟨List.replicate (2 ^ 30 - 1) (some 0), 2 ^ 30 - 1⟩ : eytzinger_array Nat) 1 = none ∧
    branchfree_prefetch_search uint32_t 4
      (⟨List.replicate (2 ^ 30 - 1) (some 0), 2 ^ 30 - 1⟩ : eytzinger_array Nat) 1 = none ∧
    eytzinger_array_bfpm.search uint32_t 4
      (⟨⟨List.replicate (2 ^ 30 - 1) (some 0), 2 ^ 30 - 1⟩, 2 ^ 30 - 1⟩ :
        eytzinger_array_bfpm Nat) 1 = none := by
  have hn : 2 ^ 30 - 1 ≤ uint32_t.max / 2 := by decide
  have hrec : index_recovery uint32_t (2 ^ 30 - 1) (2 ^ (30 + 1) - 2) = none :=
    index_recovery_undefined uint32_t _ _ (by decide) (by decide)
  have h := search_above_all uint32_t 4 (2 ^ 30 - 1)
    (⟨List.replicate (2 ^ 30 - 1) (some 0), 2 ^ 30 - 1⟩ : eytzinger_array Nat) 1 hn
    (fun p hp => ⟨0, read_replicate _ _ p hp⟩)
    (fun p hp u hu => by
      rw [read_replicate _ _ p hp] at hu
      cases hu
      exact Nat.zero_lt_one)
    30 (fun j hj => pow_chain_lt 30 j hj) (by decide)
  rw [hrec] at h
  exact h

/-! ## Loops, traces and the bit trick -/

theorem lt_two_pow_self_succ (d : Nat) : d + 1 < 2 ^ (d + 1) + 1 := by
  have := Nat.lt_two_pow (d + 1)
  omega

/-- The mask loop from `mask = 2^j`, when `2^(j+d)` is the first power of two above `n`. -/
theorem mask_loop_run (I : IndexType) (n : Nat) (hn : n ≤ I.max / 2) :
    ∀ (d fuel j : Nat), d < fuel → (∀ c, c < d → 2 ^ (j + c) ≤ n) → n < 2 ^ (j + d) →
      mask_loop I n fuel (2 ^ j) = some (2 ^ (j + d)) ∧
      mask_trace I n fuel (2 ^ j) = (List.range (d + 1)).map (fun c => 2 ^ (j + c)) := by
  intro d
  induction d with
  | zero =>
    intro fuel j hf _ hlt
    obtain ⟨f, rfl⟩ : ∃ f, fuel = f + 1 := ⟨fuel - 1, by omega⟩
    simp only [Nat.add_zero] at hlt
    simp [mask_loop, mask_trace, Nat.not_le.mpr hlt, List.range_succ]
  | succ d ih =>
    intro fuel j hf hle hlt
    obtain ⟨f, rfl⟩ : ∃ f, fuel = f + 1 := ⟨fuel - 1, by omega⟩
    have h0 : 2 ^ j ≤ n := by simpa using hle 0 (by omega)
    have hw : I.wrap (2 ^ j * 2) = 2 ^ (j + 1) := by
      rw [pow_succ]
      exact I.wrap_of_le_max (by omega)
    obtain ⟨e1, e2⟩ := ih f (j + 1) (by omega)
      (fun c hc => by
        have := hle (c + 1) (by omega)
        rwa [show j + (c + 1) = j + 1 + c by omega] at this)
      (by rwa [show j + (d + 1) = j + 1 + d by omega] at hlt)
    constructor
    · rw [mask_loop, if_pos h0, hw, e1]
      congr 2; omega
    · rw [mask_trace, if_pos h0, hw, e2]
      conv_rhs => rw [List.range_succ_eq_map, List.map_cons, List.map_map]
      simp only [Nat.add_zero]
      congr 1
      apply List.map_congr_left
      intro c _
      simp only [Function.comp]
      congr 1; omega

theorem one_le_max (I : IndexType) (hb : 0 < I.bits) : 1 ≤ I.max := by
  unfold IndexType.max
  have : 2 ^ 1 ≤ 2 ^ I.bits := Nat.pow_le_pow_right (by norm_num) hb
  omega

/-- A branch-free loop started inside `[0, 2n]` can only end inside `[n, 2n]`. -/
theorem branchfree_loop_exit_bounds {α : Type} [LinearOrder α] (I : IndexType)
    (A : eytzinger_array α) (hint : Nat → Option Nat) (x : α) (hn : A.n ≤ I.max / 2) :
    ∀ (fuel i : Nat) (hints : List Nat) (e : Nat) (hs : List Nat), i ≤ 2 * A.n →
      branchfree_loop I A hint x fuel i hints = some (e, hs) → A.n ≤ e ∧ e ≤ 2 * A.n := by
  intro fuel
  induction fuel with
  | zero => intro i hints e hs _ h; simp [branchfree_loop] at h
  | succ f ih =>
    intro i hints e hs hi h
    rw [branchfree_loop] at h
    by_cases hlt : i < A.n
    · rw [if_pos hlt] at h
      cases hv : A.read i with
      | none => rw [hv] at h; cases h
      | some v =>
        rw [hv] at h
        simp only [I.wrap_left hn hlt, I.wrap_right hn hlt] at h
        refine ih _ _ e hs ?_ h
        split <;> omega
    · rw [if_neg hlt] at h
      cases h
      exact ⟨by omega, hi⟩

/-- A branchy loop started inside `[0, 2n]` can only leave the loop inside `[n, 2n]`, and
can only return a position below `n`. -/
theorem branchy_loop_exit_bounds {α : Type} [LinearOrder α] (I : IndexType)
    (A : eytzinger_array α) (x : α) (hn : A.n ≤ I.max / 2) :
    ∀ (fuel i : Nat), i ≤ 2 * A.n →
      (∀ e, branchy_loop I A x fuel i = some (LoopEnd.left_loop e) → A.n ≤ e ∧ e ≤ 2 * A.n) ∧
      (∀ r, branchy_loop I A x fuel i = some (LoopEnd.returned r) → r < A.n) := by
  intro fuel
  induction fuel with
  | zero => intro i _; constructor <;> intro e h <;> simp [branchy_loop] at h
  | succ f ih =>
    intro i hi
    rw [branchy_loop]
    by_cases hlt : i < A.n
    · rw [if_pos hlt]
      cases hv : A.read i with
      | none => constructor <;> intro e h <;> cases h
      | some v =>
        simp only [I.wrap_left hn hlt, I.wrap_right hn hlt]
        by_cases h1 : x < v
        · simp only [h1, if_true]
          exact ih _ (by omega)
        · by_cases h2 : x > v
          · simp only [h1, h2, if_false, if_true]
            exact ih _ (by omega)
          · simp only [h1, h2, if_false]
            constructor
            · intro e h; cases h
            · intro r h; cases h; exact hlt
    · rw [if_neg hlt]
      constructor
      · intro e h; cases h; exact ⟨by omega, hi⟩
      · intro r h; cases h

/-- An array object made from a list of keys is filled. -/
theorem filled_of_keys {α : Type} (xs : List α) :
    (⟨xs.map some, xs.length⟩ : eytzinger_array α).Filled := by
  intro p hp
  have hp1 : p < xs.length := hp
  refine ⟨xs[p], ?_⟩
  unfold eytzinger_array.read
  simp [List.getElem?_map, List.getElem?_eq_getElem hp1]

theorem pow_step (k i : Nat) (h : 2 ^ k - 1 ≤ i) :
    2 ^ (k + 1) - 1 ≤ 2 * i + 1 ∧ 2 ^ (k + 1) - 1 ≤ 2 * i + 2 := by
  have : 1 ≤ 2 ^ k := Nat.one_le_two_pow
  rw [pow_succ]
  omega

/-- After `k` iterations a branch-free loop that started at a position `i ≥ 2^k0 - 1` is at
a position at least `2^(k0+k) - 1`. -/
theorem branchfree_positions_ge {α : Type} [LinearOrder α] (I : IndexType)
    (A : eytzinger_array α) (x : α) (hn : A.n ≤ I.max / 2) :
    ∀ (fuel i k0 k p : Nat), 2 ^ k0 - 1 ≤ i →
      (branchfree_positions I A x fuel i)[k]? = some p → 2 ^ (k0 + k) - 1 ≤ p := by
  intro fuel
  induction fuel with
  | zero => intro i k0 k p _ h; simp [branchfree_positions] at h
  | succ f ih =>
    intro i k0 k p hi h
    rw [branchfree_positions] at h
    cases k with
    | zero => simp at h; subst h; simpa using hi
    | succ k =>
      rw [List.getElem?_cons_succ] at h
      by_cases hlt : i < A.n
      · rw [if_pos hlt] at h
        cases hv : A.read i with
        | none => rw [hv] at h; simp at h
        | some v =>
          rw [hv] at h
          simp only [I.wrap_left hn hlt, I.wrap_right hn hlt] at h
          have := ih _ (k0 + 1) k p (by have := pow_step k0 i hi; split <;> omega) h
          rwa [show k0 + 1 + k = k0 + (k + 1) by omega] at this
      · rw [if_neg hlt] at h; simp at h

/-- After `k` iterations a branchy loop that started at a position `i ≥ 2^k0 - 1` is at a
position at least `2^(k0+k) - 1`. -/
theorem branchy_positions_ge {α : Type} [LinearOrder α] (I : IndexType)
    (A : eytzinger_array α) (x : α) (hn : A.n ≤ I.max / 2) :
    ∀ (fuel i k0 k p : Nat), 2 ^ k0 - 1 ≤ i →
      (branchy_positions I A x fuel i)[k]? = some p → 2 ^ (k0 + k) - 1 ≤ p := by
  intro fuel
  induction fuel with
  | zero => intro i k0 k p _ h; simp [branchy_positions] at h
  | succ f ih =>
    intro i k0 k p hi h
    rw [branchy_positions] at h
    cases k with
    | zero => simp at h; subst h; simpa using hi
    | succ k =>
      rw [List.getElem?_cons_succ] at h
      by_cases hlt : i < A.n
      · rw [if_pos hlt] at h
        cases hv : A.read i with
        | none => rw [hv] at h; simp at h
        | some v =>
          rw [hv] at h
          simp only [I.wrap_left hn hlt, I.wrap_right hn hlt] at h
          have hs := pow_step k0 i hi
          by_cases h1 : x < v
          · simp only [h1, if_true] at h
            have := ih _ (k0 + 1) k p hs.1 h
            rwa [show k0 + 1 + k = k0 + (k + 1) by omega] at this
          · by_cases h2 : x > v
            · simp only [h1, h2, if_false, if_true] at h
              have := ih _ (k0 + 1) k p hs.2 h
              rwa [show k0 + 1 + k = k0 + (k + 1) by omega] at this
            · simp only [h1, h2, if_false] at h
              simp at h
      · rw [if_neg hlt] at h; simp at h

/-- A list whose elements with property `P` all sit at indices below `c` has at most `c`
elements with property `P`. -/
theorem length_filter_le_of_index {l : List Nat} {P : Nat → Bool} {c : Nat}
    (h : ∀ k p, l[k]? = some p → P p = true → k < c) : (l.filter P).length ≤ c := by
  have hsplit : l = l.take c ++ l.drop c := (List.take_append_drop c l).symm
  have hdrop : (l.drop c).filter P = [] := by
    rw [List.filter_eq_nil_iff]
    intro p hp
    obtain ⟨k, hk⟩ := List.getElem?_of_mem hp
    rw [List.getElem?_drop] at hk
    intro hP
    have := h (c + k) p hk hP
    omega
  rw [hsplit, List.filter_append, hdrop, List.append_nil]
  calc (List.filter P (List.take c l)).length ≤ (List.take c l).length := List.length_filter_le _ _
    _ ≤ c := by rw [List.length_take]; exact Nat.min_le_left _ _

/-- More fuel does not change the result of a branch-free loop. -/
theorem branchfree_loop_mono {α : Type} [LinearOrder α] (I : IndexType) (A : eytzinger_array α)
    (hint : Nat → Option Nat) (x : α) :
    ∀ (fuel d i : Nat) (hints : List Nat) (r : Nat × List Nat),
      branchfree_loop I A hint x fuel i hints = some r →
      branchfree_loop I A hint x (fuel + d) i hints = some r := by
  intro fuel
  induction fuel with
  | zero => intro d i hints r h; simp [branchfree_loop] at h
  | succ f ih =>
    intro d i hints r h
    rw [show f + 1 + d = (f + d) + 1 by omega, branchfree_loop]
    rw [branchfree_loop] at h
    by_cases hlt : i < A.n
    · rw [if_pos hlt] at h ⊢
      cases hv : A.read i with
      | none => rw [hv] at h; cases h
      | some v =>
        rw [hv] at h
        exact ih d _ _ r h
    · rw [if_neg hlt] at h ⊢
      exact h

/-- More fuel does not change the result of a branchy loop. -/
theorem branchy_loop_mono {α : Type} [LinearOrder α] (I : IndexType) (A : eytzinger_array α)
    (x : α) :
    ∀ (fuel d i : Nat) (r : LoopEnd), branchy_loop I A x fuel i = some r →
      branchy_loop I A x (fuel + d) i = some r := by
  intro fuel
  induction fuel with
  | zero => intro d i r h; simp [branchy_loop] at h
  | succ f ih =>
    intro d i r h
    rw [show f + 1 + d = (f + d) + 1 by omega, branchy_loop]
    rw [branchy_loop] at h
    by_cases hlt : i < A.n
    · rw [if_pos hlt] at h ⊢
      cases hv : A.read i with
      | none => rw [hv] at h; cases h
      | some v =>
        rw [hv] at h
        simp only
        by_cases h1 : x < v
        · simp only [h1, if_true] at h ⊢
          exact ih d _ r h
        · by_cases h2 : x > v
          · simp only [h1, h2, if_false, if_true] at h ⊢
            exact ih d _ r h
          · simp only [h1, h2, if_false] at h ⊢
            exact h
    · rw [if_neg hlt] at h ⊢
      exact h

/-- A branch-free loop at a position `i ≥ 2^k0 - 1` ends within `c` iterations when
`n + 1 ≤ 2^(k0 + c)`, and the last position it tests is the position at which it ends. -/
theorem branchfree_loop_within {α : Type} [LinearOrder α] (I : IndexType)
    (A : eytzinger_array α) (hint : Nat → Option Nat) (x : α) (hn : A.n ≤ I.max / 2)
    (hf : A.Filled) :
    ∀ (c fuel i k0 : Nat) (hints : List Nat), 2 ^ k0 - 1 ≤ i → A.n + 1 ≤ 2 ^ (k0 + c) →
      c < fuel →
      ∃ e hs, branchfree_loop I A hint x fuel i hints = some (e, hs) ∧
        (branchfree_positions I A x fuel i).getLast? = some e := by
  intro c
  induction c with
  | zero =>
    intro fuel i k0 hints hi hc hfu
    obtain ⟨f, rfl⟩ : ∃ f, fuel = f + 1 := ⟨fuel - 1, by omega⟩
    have hlt : ¬ i < A.n := by simp at hc; omega
    refine ⟨i, hints, ?_, ?_⟩
    · rw [branchfree_loop, if_neg hlt]
    · rw [branchfree_positions, if_neg hlt]; rfl
  | succ c ih =>
    intro fuel i k0 hints hi hc hfu
    obtain ⟨f, rfl⟩ : ∃ f, fuel = f + 1 := ⟨fuel - 1, by omega⟩
    by_cases hlt : i < A.n
    · obtain ⟨v, hv⟩ := hf i hlt
      have hs := pow_step k0 i hi
      obtain ⟨e, hs1, h1, h2⟩ := ih f (if x ≤ v then 2 * i + 1 else 2 * i + 2) (k0 + 1)
        (match hint i with
         | some h => hints ++ [h]
         | none => hints)
        (by split <;> omega) (by rwa [show k0 + 1 + c = k0 + (c + 1) by omega]) (by omega)
      refine ⟨e, hs1, ?_, ?_⟩
      · rw [branchfree_loop, if_pos hlt, hv]
        simp only [I.wrap_left hn hlt, I.wrap_right hn hlt]
        exact h1
      · rw [branchfree_positions, if_pos hlt, hv]
        simp only [I.wrap_left hn hlt, I.wrap_right hn hlt]
        rw [List.getLast?_cons, h2]
        rfl
    · refine ⟨i, hints, ?_, ?_⟩
      · rw [branchfree_loop, if_neg hlt]
      · rw [branchfree_positions, if_neg hlt]; rfl

/-- A branchy loop at a position `i ≥ 2^k0 - 1` ends within `c` iterations when
`n + 1 ≤ 2^(k0 + c)`, and the last position it tests is the position at which it ends. -/
theorem branchy_loop_within {α : Type} [LinearOrder α] (I : IndexType)
    (A : eytzinger_array α) (x : α) (hn : A.n ≤ I.max / 2) (hf : A.Filled) :
    ∀ (c fuel i k0 : Nat), 2 ^ k0 - 1 ≤ i → A.n + 1 ≤ 2 ^ (k0 + c) → c < fuel →
      ∃ r, branchy_loop I A x fuel i = some r ∧
        (branchy_positions I A x fuel i).getLast? = some r.position := by
  intro c
  induction c with
  | zero =>
    intro fuel i k0 hi hc hfu
    obtain ⟨f, rfl⟩ : ∃ f, fuel = f + 1 := ⟨fuel - 1, by omega⟩
    have hlt : ¬ i < A.n := by simp at hc; omega
    refine ⟨LoopEnd.left_loop i, ?_, ?_⟩
    · rw [branchy_loop, if_neg hlt]
    · rw [branchy_positions, if_neg hlt]; rfl
  | succ c ih =>
    intro fuel i k0 hi hc hfu
    obtain ⟨f, rfl⟩ : ∃ f, fuel = f + 1 := ⟨fuel - 1, by omega⟩
    by_cases hlt : i < A.n
    · obtain ⟨v, hv⟩ := hf i hlt
      have hs := pow_step k0 i hi
      rw [branchy_loop, branchy_positions, if_pos hlt, if_pos hlt, hv]
      simp only [I.wrap_left hn hlt, I.wrap_right hn hlt]
      by_cases h1 : x < v
      · simp only [h1, if_true]
        obtain ⟨r, e1, e2⟩ := ih f (2 * i + 1) (k0 + 1) hs.1
          (by rwa [show k0 + 1 + c = k0 + (c + 1) by omega]) (by omega)
        refine ⟨r, e1, ?_⟩
        rw [List.getLast?_cons, e2]; rfl
      · by_cases h2 : x > v
        · simp only [h1, h2, if_false, if_true]
          obtain ⟨r, e1, e2⟩ := ih f (2 * i + 2) (k0 + 1) hs.2
            (by rwa [show k0 + 1 + c = k0 + (c + 1) by omega]) (by omega)
          refine ⟨r, e1, ?_⟩
          rw [List.getLast?_cons, e2]; rfl
        · simp only [h1, h2, if_false]
          exact ⟨LoopEnd.returned i, rfl, rfl⟩
    · refine ⟨LoopEnd.left_loop i, ?_, ?_⟩
      · rw [branchy_loop, if_neg hlt]
      · rw [branchy_positions, if_neg hlt]; rfl

theorem clog_le_self (n : Nat) : Nat.clog 2 (n + 1) ≤ n := by
  rw [← Nat.le_pow_iff_clog_le (by norm_num)]
  exact Nat.lt_two_pow n

/-- Forgetting the log of `copy_data_log` gives `copy_data`. -/
theorem copy_data_log_erase {α : Type} (I : IndexType) (n : Nat) :
    ∀ (fuel : Nat) (a0 : List α) (a : List (Option α)) (i : Nat) (log : List (Nat × α)),
      (copy_data_log I n fuel a0 a i log).map (fun r => (r.1, r.2.1)) =
        copy_data I n fuel a0 a i := by
  intro fuel
  induction fuel with
  | zero => intro a0 a i log; rfl
  | succ f ih =>
    intro a0 a i log
    rw [copy_data_log, copy_data]
    by_cases hi : i ≥ n
    · simp [hi]
    · simp only [hi, if_false]
      rw [← ih a0 a (I.wrap (2 * i + 1)) log]
      cases copy_data_log I n f a0 a (I.wrap (2 * i + 1)) log with
      | none => rfl
      | some r =>
        obtain ⟨a1, b, log1⟩ := r
        cases a1 with
        | nil => rfl
        | cons v a2 => exact ih _ _ _ _

theorem zip_take_length {α β : Type} (l : List β) :
    ∀ (a : List α), l.zip (a.take l.length) = l.zip a := by
  induction l with
  | nil => intro a; simp
  | cons p l ih =>
    intro a
    cases a with
    | nil => simp
    | cons v a => simp [ih a]

/-- The log of `copy_data(a0, i)`: the positions of the subtree rooted at `i`, in in-order,
paired with the input elements in input order. -/
theorem copy_data_log_spec {α : Type} (I : IndexType) (n : Nat) (hn : n ≤ I.max / 2) :
    ∀ (fuel i : Nat) (a0 : List α) (b : List (Option α)) (log : List (Nat × α)),
      n - i < fuel → (inorder_positions n i).length ≤ a0.length →
      ∃ b1, copy_data_log I n fuel a0 b i log =
        some (a0.drop (inorder_positions n i).length, b1,
          log ++ (inorder_positions n i).zip a0) := by
  intro fuel
  induction fuel with
  | zero => intro i a0 b log h; omega
  | succ f ih =>
    intro i a0 b log hf hlen
    by_cases hi : n ≤ i
    · refine ⟨b, ?_⟩
      simp [copy_data_log, hi, inorder_positions_of_ge hi]
    · have hlt : i < n := Nat.lt_of_not_le hi
      rw [inorder_positions_of_lt hlt] at hlen ⊢
      simp only [List.length_append, List.length_cons] at hlen ⊢
      obtain ⟨b1, e1⟩ := ih (2 * i + 1) a0 b log (by omega) (by omega)
      obtain ⟨v, a2, hdrop, hlen2⟩ :=
        exists_drop_eq_cons (show (inorder_positions n (2 * i + 1)).length < a0.length by omega)
      obtain ⟨b2, e2⟩ := ih (2 * i + 2) a2 (b1.set i (some v))
        (log ++ (inorder_positions n (2 * i + 1)).zip a0 ++ [(i, v)]) (by omega) (by omega)
      refine ⟨b2, ?_⟩
      rw [copy_data_log]
      simp only [ge_iff_le, hi, if_false]
      rw [I.wrap_left hn hlt, I.wrap_right hn hlt, e1]
      simp only [hdrop]
      rw [e2, drop_of_drop_eq_cons _ hdrop]
      congr 3
      rw [List.append_assoc, List.append_assoc]
      congr 1
      have hsplit : a0 = a0.take (inorder_positions n (2 * i + 1)).length ++ v :: a2 := by
        rw [← hdrop, List.take_append_drop]
      conv_rhs => rw [hsplit]
      rw [List.zip_append (by simp; omega), List.zip_cons_cons]
      rw [zip_take_length]
      rfl

/-- The in-order sequence of a subtree is a contiguous piece of the in-order sequence of the
whole tree. -/
theorem inorder_positions_segment (n : Nat) : ∀ i, ∃ pre post,
    inorder_positions n 0 = pre ++ inorder_positions n i ++ post := by
  intro i
  induction i using Nat.strong_induction_on with
  | _ i ih =>
    by_cases h0 : i = 0
    · subst h0; exact ⟨[], [], by simp⟩
    · obtain ⟨p, hp⟩ : ∃ p, i = 2 * p + 1 ∨ i = 2 * p + 2 := ⟨(i - 1) / 2, by omega⟩
      obtain ⟨pre, post, h⟩ := ih p (by omega)
      by_cases hlt : p < n
      · rw [inorder_positions_of_lt hlt] at h
        rcases hp with rfl | rfl
        · exact ⟨pre, p :: inorder_positions n (2 * p + 2) ++ post, by rw [h]; simp⟩
        · exact ⟨pre ++ inorder_positions n (2 * p + 1) ++ [p], post, by rw [h]; simp⟩
      · have hi : n ≤ i := by omega
        rw [inorder_positions_of_ge (Nat.le_of_not_lt hlt)] at h
        exact ⟨pre, post, by rw [inorder_positions_of_ge hi]; exact h⟩

/-- In a layout of keys related pairwise by `r` along the input, a key in the left subtree of
`i` is related to the key of `i`, and the key of `i` to a key in its right subtree. -/
theorem eytzinger_array.LaidOut.subtree_rel {α : Type} {A : eytzinger_array α} {xs : List α}
    (h : A.LaidOut xs) {r : α → α → Prop} (hr : xs.Pairwise r) (i p : Nat) (hi : i < A.n)
    (hp : p < A.n) (u v : α) (hu : A.read p = some u) (hv : A.read i = some v) :
    (InSubtree (2 * i + 1) p → r u v) ∧ (InSubtree (2 * i + 2) p → r v u) := by
  have hpw := h.pairwise hr
  obtain ⟨pre, post, hseg⟩ := inorder_positions_segment A.n i
  rw [inorder_positions_of_lt hi] at hseg
  rw [hseg] at hpw
  constructor
  · intro hs
    exact pairwise_mid_left hpw p (mem_inorder_positions.mpr ⟨hp, hs⟩) u v hu hv
  · intro hs
    exact pairwise_mid_right hpw p (mem_inorder_positions.mpr ⟨hp, hs⟩) v u hv hu

/-- The function `last_left` on positions follows the last left step of paths. -/
theorem last_left_walk : ∀ (path : List Step) (i : Nat),
    last_left (walk i path) = last_left_node i path (last_left i) := by
  intro path
  induction path with
  | nil => intro i; rfl
  | cons s rest ih =>
    intro i
    cases s with
    | left => rw [walk, last_left_node, ih, last_left_left]
    | right => rw [walk, last_left_node, ih, last_left_right]

theorem walk_le_of_exit : ∀ (path : List Step) (i n : Nat),
    (∀ p ∈ path_positions i path, p < n) → i ≤ 2 * n → walk i path ≤ 2 * n := by
  intro path
  induction path with
  | nil => intro i n _ hi; exact hi
  | cons s rest ih =>
    intro i n h hi
    cases s with
    | left =>
      rw [walk]
      have hlt : i < n := h i (by simp [path_positions])
      exact ih _ n (fun p hp => h p (by simp [path_positions, hp])) (by omega)
    | right =>
      rw [walk]
      have hlt : i < n := h i (by simp [path_positions])
      exact ih _ n (fun p hp => h p (by simp [path_positions, hp])) (by omega)

/-- Where the index recovery is exact, it returns the node at which the path to the exit
position took its last left step, and `n` when the path has no left step. -/
theorem index_recovery_of_path (I : IndexType) (n : Nat) (path : List Step)
    (hn : n ≤ I.max / 2) (hp : IsExitPath n path)
    (h : recovery_safe I n ∨ (I.bits ≤ 32 ∧ last_left_node 0 path none ≠ none)) :
    index_recovery I n (walk 0 path) = some ((last_left_node 0 path none).getD n) := by
  have hll : last_left (walk 0 path) = last_left_node 0 path none := by
    rw [last_left_walk, last_left_zero]
  rw [← hll] at h ⊢
  exact index_recovery_at_exit I n _ hn (walk_le_of_exit path 0 n hp.1 (by omega)) h

/-- The trailing one bits of a number that ends in a zero bit followed by `t` one bits. -/
theorem count_trailing_ones_of_bits (t : Nat) : ∀ (k v : Nat), t < k →
    v % 2 ^ (t + 1) = 2 ^ t - 1 → count_trailing_ones k v = t := by
  induction t with
  | zero =>
    intro k v hk h
    obtain ⟨f, rfl⟩ : ∃ f, k = f + 1 := ⟨k - 1, by omega⟩
    simp at h
    rw [count_trailing_ones, if_neg (by omega)]
  | succ t ih =>
    intro k v hk h
    obtain ⟨f, rfl⟩ : ∃ f, k = f + 1 := ⟨k - 1, by omega⟩
    have hp : 1 ≤ 2 ^ t := Nat.one_le_two_pow
    have e1 : 2 ^ (t + 1 + 1) = 2 * 2 ^ (t + 1) := by ring
    have e2 : 2 ^ (t + 1) = 2 * 2 ^ t := by ring
    have hodd : v % 2 = 1 := by
      have := Nat.mod_mod_of_dvd v (show 2 ∣ 2 ^ (t + 1 + 1) from ⟨2 ^ (t + 1), e1⟩)
      rw [h, e2] at this
      omega
    have hhalf : v / 2 % 2 ^ (t + 1) = 2 ^ t - 1 := by
      have hv : v = 2 * (v / 2) + 1 := by omega
      have := two_mul_add_one_mod (v / 2) (2 ^ (t + 1)) (by positivity)
      rw [← hv, ← e1, h, e2] at this
      rw [e2]
      omega
    rw [count_trailing_ones, if_pos hodd, ih f (v / 2) (by omega) hhalf]
    omega

theorem trailing_ones_of_bits (t v : Nat) (h : v % 2 ^ (t + 1) = 2 ^ t - 1) :
    trailing_ones v = t := by
  apply count_trailing_ones_of_bits t (v + 1) v _ h
  have h1 : t < 2 ^ t := Nat.lt_two_pow t
  have h3 := Nat.mod_le v (2 ^ (t + 1))
  omega

/-- What `__builtin_ffs(~v)` returns when the low 32 bits of `v` are not all ones: one more
than the number of trailing one bits of `v`. -/
theorem builtin_ffs_bnot_eq (I : IndexType) {v : Nat} (hv : v < 2 ^ I.arithBits)
    (h : v % 2 ^ 32 ≠ 2 ^ 32 - 1) :
    builtin_ffs (I.bnot v) = trailing_ones v + 1 ∧ trailing_ones v < 32 := by
  obtain ⟨t, h1, h2, h3⟩ := builtin_ffs_bnot I hv h
  rw [trailing_ones_of_bits t v h3]
  exact ⟨h1, h2⟩

/-- On the array built from a sorted input, where the index recovery is exact, the
branch-free search returns the position whose in-order rank is the number of keys below
`x`, and `n` when every key is below `x`. -/
theorem branchfree_search_rank {α : Type} [LinearOrder α] (I : IndexType) (sizeofT : Nat)
    (a0 : List α) (A : eytzinger_array α) (x : α)
    (hb : eytzinger_array.build I a0 a0.length = Outcome.ok A)
    (hs : a0.Pairwise (fun u v => u ≤ v)) (hex : search_exact I A x) :
    branchfree_search I sizeofT A x =
      some (((inorder_positions A.n 0)[(a0.filter (fun v => decide (v < x))).length]?).getD
        A.n) := by
  obtain ⟨hn, hA, _, hl⟩ := build_ok I a0 a0.length A (le_refl _) hb
  rw [List.take_length] at hl
  rw [← hA] at hn
  obtain ⟨pre, post, hsplit, hpre, hpost, hr⟩ :=
    branchfree_search_spec I sizeofT A x hn hl.filled (hl.sorted hs) hex
  have hmap : a0.map some = pre.map A.read ++ post.map A.read := by
    have := hl
    unfold eytzinger_array.LaidOut at this
    rw [hsplit, List.map_append] at this
    exact this.symm
  obtain ⟨ka, kb, hk, h1, h2⟩ := List.map_eq_append_iff.mp hmap
  have hcount : (a0.filter (fun v => decide (v < x))).length = pre.length := by
    have hfa : ka.filter (fun v => decide (v < x)) = ka := by
      rw [List.filter_eq_self]
      intro v hv
      have hm : some v ∈ ka.map some := List.mem_map_of_mem _ hv
      rw [h1, List.mem_map] at hm
      obtain ⟨p, hp, e⟩ := hm
      exact decide_eq_true (hpre p hp v e)
    have hfb : kb.filter (fun v => decide (v < x)) = [] := by
      rw [List.filter_eq_nil_iff]
      intro v hv
      have hm : some v ∈ kb.map some := List.mem_map_of_mem _ hv
      rw [h2, List.mem_map] at hm
      obtain ⟨p, hp, e⟩ := hm
      have := hpost p hp v e
      simpa using this
    have hlen : ka.length = pre.length := by
      have := congrArg List.length h1
      simpa using this
    rw [hk, List.filter_append, hfa, hfb, List.append_nil, hlen]
  rw [hr, hcount, hsplit]
  congr 1
  cases post with
  | nil => simp
  | cons c rest =>
    rw [List.getElem?_append_right (le_refl _), Nat.sub_self]
    simp

/-! ## The claims -/

/-- C1: for every `N ≤ max(I)/2` and every input of length `N`, the constructor succeeds and
the in-order traversal of the implicit tree over the buffer it filled equals the input. -/
theorem inorder_of_build {α : Type} (I : IndexType) (a0 : List α) (n : Nat)
    (hn : n ≤ I.max / 2) (hlen : a0.length = n) :
    ∃ A, eytzinger_array.build I a0 n = Outcome.ok A ∧ A.n = n ∧
      inorder A 0 = a0.map some := by
  obtain ⟨A, e, h1, _, h3⟩ := build_spec I a0 n hn (by omega)
  refine ⟨A, e, h1, ?_⟩
  rw [inorder_eq_map]
  unfold eytzinger_array.LaidOut at h3
  rw [h3, ← hlen, List.take_length]

theorem inorder_of_build_witness :
    ∃ A, eytzinger_array.build uint32_t [1, 3, 5, 7, 9, 11, 13] 7 = Outcome.ok A ∧ A.n = 7 ∧
      inorder A 0 = [1, 3, 5, 7, 9, 11, 13].map some :=
  inorder_of_build uint32_t [1, 3, 5, 7, 9, 11, 13] 7 (by decide) (by decide)

/-- C2, failing input: with `I` the 64-bit unsigned type and the strictly increasing input
`0, 1, ..., N-1` of `N = 3 * 2^31 - 1` keys, the root holds the key `2^32 - 1`, and the
branch-free search for this key returns `3 * 2^32 - 2`, which is not an index below `N`. -/
theorem branchfree_search_stored_key_uint64 :
    ∃ A, eytzinger_array.build uint64_t (List.range (3 * 2 ^ 31 - 1)) (3 * 2 ^ 31 - 1) =
        Outcome.ok A ∧ A.n = 3 * 2 ^ 31 - 1 ∧ A.read 0 = some (2 ^ 32 - 1) ∧
      branchfree_search uint64_t 8 A (2 ^ 32 - 1) = some (3 * 2 ^ 32 - 2) := by
  have hn : 3 * 2 ^ 31 - 1 ≤ uint64_t.max / 2 := by decide
  obtain ⟨A, hb, hA, _, hl⟩ := build_spec uint64_t (List.range (3 * 2 ^ 31 - 1))
    (3 * 2 ^ 31 - 1) hn (by rw [List.length_range])
  rw [List.take_of_length_le (by rw [List.length_range])] at hl
  have h0 : 0 < A.n := by rw [hA]; decide
  have hm : (inorder_positions A.n 1).length = 2 ^ 32 - 1 :=
    length_inorder_positions_perfect A.n 32 1 (fun _ => by rw [hA]; decide) (by rw [hA]; decide)
  have hroot : A.read 0 = some (2 ^ 32 - 1) := by
    have h2 := (hl.split_at_root h0 _ hm).2
    rw [List.drop_eq_getElem_cons (by rw [List.length_range]; decide), List.map_cons,
      List.getElem_range] at h2
    exact (List.cons.inj h2).1
  refine ⟨A, hb, hA, hroot, ?_⟩
  have hinc : (List.range (3 * 2 ^ 31 - 1)).Pairwise (fun u v => u < v) :=
    List.pairwise_lt_range _
  rw [branchfree_search_root_key uint64_t 8 A _ (by rw [hA]; exact hn) h0 hroot 32
    (by rw [hA]; decide) ?_ (by rw [hA]; decide)]
  · exact index_recovery_of_ones uint64_t _ _ (by decide) (by decide)
  · intro j hj
    have hlt : 3 * 2 ^ j - 2 < A.n := by rw [hA]; exact three_chain_lt 31 j hj
    obtain ⟨u, hu⟩ := hl.filled _ hlt
    refine ⟨hlt, u, hu, left_subtree_lt_root hl hinc _ hlt ⟨j, ?_, ?_⟩ u _ hu hroot⟩
    · have : 1 ≤ 2 ^ j := Nat.one_le_two_pow
      omega
    · have : 1 ≤ 2 ^ j := Nat.one_le_two_pow
      omega

/-- C3, failing input: with `I` the 32-bit unsigned type, the array built from the sorted
input of `2^31 - 1 = max(I)/2` keys all equal to 0 answers the query 1, which is not stored
and is greater than every stored key, with `2^32 - 2` and not with `N`, in each of the four
search strategies. -/
theorem search_above_all_uint32 :
    ∃ A, eytzinger_array.build uint32_t (List.replicate (2 ^ 31 - 1) 0) (2 ^ 31 - 1) =
        Outcome.ok A ∧ A.n = 2 ^ 31 - 1 ∧
      search uint32_t A 1 = some (2 ^ 32 - 2) ∧
      branchfree_search uint32_t 4 A 1 = some (2 ^ 32 - 2) ∧
      branchfree_prefetch_search uint32_t 4 A 1 = some (2 ^ 32 - 2) ∧
      eytzinger_array_bfpm.search uint32_t 4 ⟨A, 2 ^ 31 - 1⟩ 1 = some (2 ^ 32 - 2) := by
  have hn : 2 ^ 31 - 1 ≤ uint32_t.max / 2 := by decide
  obtain ⟨A, hb, hA, _, hl⟩ := build_spec uint32_t (List.replicate (2 ^ 31 - 1) 0)
    (2 ^ 31 - 1) hn (by rw [List.length_replicate])
  have hrec : index_recovery uint32_t A.n (2 ^ (31 + 1) - 2) = some (2 ^ 32 - 2) :=
    index_recovery_of_ones uint32_t _ _ (by decide) (by decide)
  have h := search_above_all uint32_t 4 (2 ^ 31 - 1) A 1 (by rw [hA]; exact hn) hl.filled
    (fun p hp u hu => by
      obtain ⟨v, hv, e⟩ := hl.read_mem hp
      rw [e] at hu
      cases hu
      have := List.eq_of_mem_replicate (List.mem_of_mem_take hv)
      omega)
    31 (fun j hj => by rw [hA]; exact pow_chain_lt 31 j hj) (by rw [hA]; decide)
  rw [hrec] at h
  exact ⟨A, hb, hA, h⟩

/-- C4, counterexample: on the array built from `[5,5,5]` the branchy search answers the
query 5 with index 0 and the branch-free search answers it with index 1. -/
theorem strategies_differ_on_duplicates :
    eytzinger_array.build uint32_t [5, 5, 5] 3 = Outcome.ok ⟨[some 5, some 5, some 5], 3⟩ ∧
    search uint32_t ⟨[some 5, some 5, some 5], 3⟩ 5 = some 0 ∧
    branchfree_search uint32_t 4 ⟨[some 5, some 5, some 5], 3⟩ 5 = some 1 ∧
    search uint32_t ⟨[some 5, some 5, some 5], 3⟩ 5 ≠
      branchfree_search uint32_t 4 ⟨[some 5, some 5, some 5], 3⟩ 5 := by
  decide

/-- C4, amended: on every built array and for every query key the three branch-free
strategies return the same value; when the input keys are strictly increasing and the array
is small enough for the index recovery to be exact (`2N + 2 < 2^31`, or `2N + 2 < 2^32` with
an index type wider than 32 bits), the branchy search returns that index too. -/
theorem strategies_agree {α : Type} [LinearOrder α] (I : IndexType) (sizeofT mask : Nat)
    (a0 : List α) (A : eytzinger_array α) (x : α)
    (hb : eytzinger_array.build I a0 a0.length = Outcome.ok A) :
    (branchfree_prefetch_search I sizeofT A x = branchfree_search I sizeofT A x ∧
      eytzinger_array_bfpm.search I sizeofT ⟨A, mask⟩ x = branchfree_search I sizeofT A x) ∧
    (a0.Pairwise (fun u v => u < v) → recovery_safe I a0.length →
      ∃ r, search I A x = some r ∧ branchfree_search I sizeofT A x = some r ∧
        branchfree_prefetch_search I sizeofT A x = some r ∧
        eytzinger_array_bfpm.search I sizeofT ⟨A, mask⟩ x = some r) := by
  obtain ⟨h1, h2⟩ := branchfree_strategies_eq I sizeofT ⟨A, mask⟩ x
  refine ⟨⟨h1, h2⟩, ?_⟩
  intro hinc hsafe
  obtain ⟨hn, hA, _, hl⟩ := build_ok I a0 a0.length A (le_refl _) hb
  rw [List.take_length] at hl
  rw [← hA] at hn hsafe
  have hf := hl.filled
  have hs := hl.sorted (hinc.imp (fun h => le_of_lt h))
  obtain ⟨r1, e1, b1⟩ := branchy_search_lower_bound I A x hn hf hs (Or.inl hsafe)
  obtain ⟨r2, e2, b2⟩ := branchfree_search_lower_bound I sizeofT A x hn hf hs (Or.inl hsafe)
  have e := lower_bound_unique A x (hl.read_injective hinc) r1 r2 b1 b2
  subst e
  exact ⟨r1, e1, e2, h1.trans e2, h2.trans e2⟩

theorem strategies_agree_witness :
    ∃ r, search uint32_t ⟨[some 7, some 3, some 11, some 1, some 5, some 9, some 13], 7⟩ 6
        = some r ∧
      branchfree_search uint32_t 4
        ⟨[some 7, some 3, some 11, some 1, some 5, some 9, some 13], 7⟩ 6 = some r ∧
      branchfree_prefetch_search uint32_t 4
        ⟨[some 7, some 3, some 11, some 1, some 5, some 9, some 13], 7⟩ 6 = some r ∧
      eytzinger_array_bfpm.search uint32_t 4
        ⟨⟨[some 7, some 3, some 11, some 1, some 5, some 9, some 13], 7⟩, 7⟩ 6 = some r :=
  (strategies_agree uint32_t 4 7 [1, 3, 5, 7, 9, 11, 13]
    ⟨[some 7, some 3, some 11, some 1, some 5, some 9, some 13], 7⟩ 6 (by decide)).2
    (by decide) (Or.inl (by decide))

/-- C5, counterexample: the count 1 is within the capacity of the 8-bit index type
(`1 ≤ max(I)/2 = 127`), yet the constructor does not succeed on the empty input, where it
reads past the end of the input, nor when the allocation of the buffer fails. -/
theorem construct_not_always_ok :
    1 ≤ uint8_t.max / 2 ∧
    eytzinger_array.construct uint8_t true ([] : List Nat) 1 = Outcome.undefined ∧
    eytzinger_array.construct uint8_t false [10] 1 = Outcome.bad_alloc ∧
    (¬ ∃ A, eytzinger_array.construct uint8_t true ([] : List Nat) 1 = Outcome.ok A) ∧
    (¬ ∃ A, eytzinger_array.construct uint8_t false [10] 1 = Outcome.ok A) := by
  refine ⟨by decide, rfl, rfl, ?_, ?_⟩
  · rintro ⟨A, h⟩
    cases h
  · rintro ⟨A, h⟩
    cases h

/-- C5, amended: the constructor fails with the `out_of_range` error exactly when
`n0 > max(I)/2`; for an index type that is not 8 bits wide the text of the error carries
`n0` in decimal; a failing call is the same whether or not memory is available and whatever
the input (no buffer is allocated, no element is read); and for `n0 ≤ max(I)/2`, when the
allocation succeeds and the input yields `n0` elements, the constructor succeeds with
count `n0`. -/
theorem construct_out_of_range_iff {α : Type} (I : IndexType) (available : Bool)
    (a0 : List α) (n0 : Nat) :
    ((∃ what, eytzinger_array.construct I available a0 n0 = Outcome.out_of_range what) ↔
      n0 > I.max / 2) ∧
    (I.bits ≠ 8 →
      ∀ what, eytzinger_array.construct I available a0 n0 = Outcome.out_of_range what →
        what = "array length " ++ toString n0 ++ " is too big, use a larger I class") ∧
    (n0 > I.max / 2 → ∀ (available' : Bool) (a0' : List α),
      eytzinger_array.construct I available' a0' n0 =
        eytzinger_array.construct I available a0 n0) ∧
    (n0 ≤ I.max / 2 → available = true → n0 ≤ a0.length →
      ∃ A, eytzinger_array.construct I available a0 n0 = Outcome.ok A ∧ A.n = n0 ∧
        A.a.length = n0) := by
  by_cases hn : n0 > I.max / 2
  · have e : ∀ (v : Bool) (l : List α), eytzinger_array.construct I v l n0 =
        Outcome.out_of_range (too_big_message I n0) := by
      intro v l; unfold eytzinger_array.construct; rw [if_pos hn]
    refine ⟨⟨fun _ => hn, fun _ => ⟨_, e available a0⟩⟩, ?_, ?_, ?_⟩
    · intro h8 what hw
      rw [e available a0] at hw
      cases hw
      unfold too_big_message stream_index
      rw [if_neg h8]
    · intro _ v l; rw [e, e]
    · intro h; omega
  · have e : ∀ what, eytzinger_array.construct I available a0 n0 ≠
        Outcome.out_of_range what := by
      intro what hw
      unfold eytzinger_array.construct at hw
      rw [if_neg hn] at hw
      cases available with
      | false => cases hw
      | true =>
        cases hc : copy_data I n0 (n0 + 1) a0 (List.replicate n0 none) 0 with
        | none => simp only [hc] at hw; cases hw
        | some r => simp only [hc] at hw; cases hw
    refine ⟨⟨?_, fun h => absurd h hn⟩, ?_, fun h => absurd h hn, ?_⟩
    · rintro ⟨what, hw⟩
      exact absurd hw (e what)
    · intro _ what hw
      exact absurd hw (e what)
    · intro h1 h2 h3
      subst h2
      obtain ⟨A, e, h4, h5, _⟩ := build_spec I a0 n0 h1 h3
      exact ⟨A, e, h4, h5⟩

theorem construct_out_of_range_iff_witness :
    (∃ A, eytzinger_array.construct uint8_t true [10, 20, 30] 3 = Outcome.ok A ∧ A.n = 3 ∧
      A.a.length = 3) ∧
    (∀ (available' : Bool) (a0' : List Nat),
      eytzinger_array.construct uint8_t available' a0' 128 =
        eytzinger_array.construct uint8_t true [1] 128) ∧
    too_big_message uint32_t (2 ^ 31) =
      "array length " ++ toString (2 ^ 31) ++ " is too big, use a larger I class" :=
  ⟨(construct_out_of_range_iff uint8_t true [10, 20, 30] 3).2.2.2 (by decide) rfl (by decide),
    (construct_out_of_range_iff uint8_t true [1] 128).2.2.1 (by decide),
    (construct_out_of_range_iff uint32_t true [1] (2 ^ 31)).2.1 (by decide) _ rfl⟩

/-- C6, failing input: with `I` the 32-bit unsigned type, on an array of `2^31 - 1 = max(I)/2`
keys all equal to 0 the query 1 makes each of the four search strategies return
`2^32 - 2`, which is not an index in `[0, N]`. -/
theorem search_out_of_range_uint32 :
    search uint32_t (⟨List.replicate (2 ^ 31 - 1) (some 0), 2 ^ 31 - 1⟩ : eytzinger_array Nat) 1
      = some (2 ^ 32 - 2) ∧
    branchfree_search uint32_t 4
      (⟨List.replicate (2 ^ 31 - 1) (some 0), 2 ^ 31 - 1⟩ : eytzinger_array Nat) 1
      = some (2 ^ 32 - 2) ∧
    branchfree_prefetch_search uint32_t 4
      (⟨List.replicate (2 ^ 31 - 1) (some 0), 2 ^ 31 - 1⟩ : eytzinger_array Nat) 1
      = some (2 ^ 32 - 2) ∧
    eytzinger_array_bfpm.search uint32_t 4
      (⟨⟨List.replicate (2 ^ 31 - 1) (some 0), 2 ^ 31 - 1⟩, 2 ^ 31 - 1⟩ :
        eytzinger_array_bfpm Nat) 1
      = some (2 ^ 32 - 2) := by
  have hn : 2 ^ 31 - 1 ≤ uint32_t.max / 2 := by decide
  have hrec : index_recovery uint32_t (2 ^ 31 - 1) (2 ^ (31 + 1) - 2) = some (2 ^ 32 - 2) :=
    index_recovery_of_ones uint32_t _ _ (by decide) (by decide)
  have h := search_above_all uint32_t 4 (2 ^ 31 - 1)
    (⟨List.replicate (2 ^ 31 - 1) (some 0), 2 ^ 31 - 1⟩ : eytzinger_array Nat) 1 hn
    (fun p hp => ⟨0, read_replicate _ _ p hp⟩)
    (fun p hp u hu => by
      rw [read_replicate _ _ p hp] at hu
      cases hu
      exact Nat.zero_lt_one)
    31 (fun j hj => pow_chain_lt 31 j hj) (by decide)
  rw [hrec] at h
  exact h

/-- C7, failing input: with `I` the 64-bit unsigned type and the sorted input of
`N = 3 * 2^31 - 1` keys made of `2^32 - 1` zeros followed by `2^31` ones, the key 1 occurs in
the input (the root holds it), and each of the three branch-free strategies answers the
query 1 with `3 * 2^32 - 2`, which is not an index below `N`. -/
theorem branchfree_search_duplicate_key_uint64 :
    ∃ A, eytzinger_array.build uint64_t
          (List.replicate (2 ^ 32 - 1) 0 ++ List.replicate (2 ^ 31) 1) (3 * 2 ^ 31 - 1) =
        Outcome.ok A ∧ A.n = 3 * 2 ^ 31 - 1 ∧ A.read 0 = some 1 ∧
      branchfree_search uint64_t 8 A 1 = some (3 * 2 ^ 32 - 2) ∧
      branchfree_prefetch_search uint64_t 8 A 1 = some (3 * 2 ^ 32 - 2) ∧
      eytzinger_array_bfpm.search uint64_t 8 ⟨A, 2 ^ 33 - 1⟩ 1 = some (3 * 2 ^ 32 - 2) := by
  have hn : 3 * 2 ^ 31 - 1 ≤ uint64_t.max / 2 := by decide
  have hlen : (List.replicate (2 ^ 32 - 1) 0 ++ List.replicate (2 ^ 31) 1).length =
      3 * 2 ^ 31 - 1 := by
    rw [List.length_append, List.length_replicate, List.length_replicate]
    norm_num
  obtain ⟨A, hb, hA, _, hl⟩ := build_spec uint64_t
    (List.replicate (2 ^ 32 - 1) 0 ++ List.replicate (2 ^ 31) 1) (3 * 2 ^ 31 - 1) hn
    (by rw [hlen])
  rw [List.take_of_length_le (by rw [hlen])] at hl
  have h0 : 0 < A.n := by rw [hA]; decide
  have hm : (inorder_positions A.n 1).length = (List.replicate (2 ^ 32 - 1) 0).length := by
    rw [List.length_replicate]
    exact length_inorder_positions_perfect A.n 32 1 (fun _ => by rw [hA]; decide)
      (by rw [hA]; decide)
  obtain ⟨hL, hR⟩ := hl.split_at_root h0 _ hm
  rw [List.take_left] at hL
  rw [List.drop_left] at hR
  have hroot : A.read 0 = some 1 := by
    have e31 : 2 ^ 31 = 2 ^ 31 - 1 + 1 := by norm_num
    have e : List.replicate (2 ^ 31) 1 = 1 :: List.replicate (2 ^ 31 - 1) 1 :=
      (congrArg (fun k => List.replicate k 1) e31).trans (List.replicate_succ _ _)
    rw [e, List.map_cons] at hR
    exact (List.cons.inj hR).1
  have hleft : ∀ p, p ∈ inorder_positions A.n 1 → A.read p = some 0 := by
    intro p hp
    have h1 : A.read p ∈ (inorder_positions A.n 1).map A.read := List.mem_map_of_mem _ hp
    rw [hL, List.mem_map] at h1
    obtain ⟨v, hv, e⟩ := h1
    rw [List.eq_of_mem_replicate hv] at e
    exact e.symm
  have hbf : branchfree_search uint64_t 8 A 1 = some (3 * 2 ^ 32 - 2) := by
    rw [branchfree_search_root_key uint64_t 8 A _ (by rw [hA]; exact hn) h0 hroot 32
      (by rw [hA]; decide) ?_ (by rw [hA]; decide)]
    · exact index_recovery_of_ones uint64_t _ _ (by decide) (by decide)
    · intro j hj
      have hlt : 3 * 2 ^ j - 2 < A.n := by rw [hA]; exact three_chain_lt 31 j hj
      have hp : 1 ≤ 2 ^ j := Nat.one_le_two_pow
      refine ⟨hlt, 0, hleft _ (mem_inorder_positions.mpr ⟨hlt, j, ?_, ?_⟩), Nat.zero_lt_one⟩
      · omega
      · omega
  obtain ⟨h1, h2⟩ := branchfree_strategies_eq uint64_t 8 ⟨A, 2 ^ 33 - 1⟩ 1
  exact ⟨A, hb, hA, hroot, hbf, h1.trans hbf, h2.trans hbf⟩

/-- C8: building from `[1,3,5,7,9,11,13]` with `N = 7` yields the buffer
`[7,3,11,1,5,9,13]`, and on that array `search(5) = 4`, `search(6) = 0` and
`search(14) = 7`. -/
theorem build_and_search_seven (I : IndexType) (h : 7 ≤ I.max / 2) :
    eytzinger_array.build I [1, 3, 5, 7, 9, 11, 13] 7 =
      Outcome.ok ⟨[some 7, some 3, some 11, some 1, some 5, some 9, some 13], 7⟩ ∧
    search I ⟨[some 7, some 3, some 11, some 1, some 5, some 9, some 13], 7⟩ 5 = some 4 ∧
    search I ⟨[some 7, some 3, some 11, some 1, some 5, some 9, some 13], 7⟩ 6 = some 0 ∧
    search I ⟨[some 7, some 3, some 11, some 1, some 5, some 9, some 13], 7⟩ 14 = some 7 := by
  have hw : ∀ v, v ≤ 14 → I.wrap v = v := fun v hv => I.wrap_of_le_max (by omega)
  have hr : ∀ e, e ≤ 14 → index_recovery I 7 e = some ((last_left e).getD 7) := fun e he =>
    index_recovery_at_exit I 7 e h he (Or.inl (Or.inl (by norm_num)))
  refine ⟨?_, ?_, ?_, ?_⟩
  · rw [build_unfold, if_neg (by omega)]
    simp [copy_data, hw]
  · simp [search, _branchy_search, branchy_loop, eytzinger_array.read, hw]
  · have h10 : last_left 10 = some 0 := by
      rw [show (10 : Nat) = 2 * 4 + 2 from rfl, last_left_right,
        show (4 : Nat) = 2 * 1 + 2 from rfl, last_left_right,
        show (1 : Nat) = 2 * 0 + 1 from rfl, last_left_left]
    simp [search, _branchy_search, branchy_loop, eytzinger_array.read, hw, hr, h10]
  · have h14 : last_left 14 = none := last_left_all_ones 4 14 (by norm_num)
    simp [search, _branchy_search, branchy_loop, eytzinger_array.read, hw, hr, h14]

theorem build_and_search_seven_witness :
    search uint32_t ⟨[some 7, some 3, some 11, some 1, some 5, some 9, some 13], 7⟩ 6 = some 0 :=
  (build_and_search_seven uint32_t (by decide)).2.2.1

/-- C9: on the empty array every one of the four search strategies leaves its loop at the
first test of the loop condition, without an iteration, and returns 0. -/
theorem search_empty {α : Type} [LinearOrder α] (I : IndexType) (sizeofT mask : Nat)
    (A : eytzinger_array α) (x : α) (hA : A.n = 0) :
    branchy_loop I A x 1 0 = some (LoopEnd.left_loop 0) ∧
    (∀ hint, branchfree_loop I A hint x 1 0 [] = some (0, [])) ∧
    search I A x = some 0 ∧ branchfree_search I sizeofT A x = some 0 ∧
    branchfree_prefetch_search I sizeofT A x = some 0 ∧
    eytzinger_array_bfpm.search I sizeofT ⟨A, mask⟩ x = some 0 := by
  have hrec : index_recovery I 0 0 = some 0 := by
    have h := index_recovery_at_exit I 0 0 (Nat.zero_le _) (Nat.zero_le _)
      (Or.inl (Or.inl (by norm_num)))
    rw [h, last_left_zero]; rfl
  have hbf : branchfree_search I sizeofT A x = some 0 := by
    unfold branchfree_search
    rw [branchfree_search_eq, hA]
    simp [branchfree_loop, hA, hrec]
  obtain ⟨h1, h2⟩ := branchfree_strategies_eq I sizeofT ⟨A, mask⟩ x
  refine ⟨?_, ?_, ?_, hbf, ?_, ?_⟩
  · simp [branchy_loop, hA]
  · intro hint; simp [branchfree_loop, hA]
  · unfold search _branchy_search
    rw [hA]
    simp [branchy_loop, hA, hrec]
  · rw [h1]; exact hbf
  · rw [h2]; exact hbf

theorem search_empty_witness :
    search uint32_t (⟨[], 0⟩ : eytzinger_array Nat) 5 = some 0 :=
  (search_empty uint32_t 4 0 (⟨[], 0⟩ : eytzinger_array Nat) 5 rfl).2.2.1

/-- C10: on a single-element array `[v]` each of the four search strategies returns 0 when
`x ≤ v` and 1 when `x > v`; on `[42]`, `search(42) = 0`, `search(1) = 0` and
`search(100) = 1`. -/
theorem search_singleton {α : Type} [LinearOrder α] (I : IndexType) (sizeofT mask : Nat)
    (v x : α) (h : 1 ≤ I.max / 2) :
    (search I ⟨[some v], 1⟩ x = some (if x ≤ v then 0 else 1) ∧
      branchfree_search I sizeofT ⟨[some v], 1⟩ x = some (if x ≤ v then 0 else 1) ∧
      branchfree_prefetch_search I sizeofT ⟨[some v], 1⟩ x = some (if x ≤ v then 0 else 1) ∧
      eytzinger_array_bfpm.search I sizeofT ⟨⟨[some v], 1⟩, mask⟩ x =
        some (if x ≤ v then 0 else 1)) ∧
    search I (⟨[some 42], 1⟩ : eytzinger_array Nat) 42 = some 0 ∧
    search I (⟨[some 42], 1⟩ : eytzinger_array Nat) 1 = some 0 ∧
    search I (⟨[some 42], 1⟩ : eytzinger_array Nat) 100 = some 1 :=
  ⟨singleton_search_values I sizeofT mask v x h,
    (singleton_search_values I sizeofT mask 42 42 h).1,
    (singleton_search_values I sizeofT mask 42 1 h).1,
    (singleton_search_values I sizeofT mask 42 100 h).1⟩

theorem search_singleton_witness :
    branchfree_search uint32_t 4 (⟨[some 42], 1⟩ : eytzinger_array Nat) 100 = some 1 :=
  (search_singleton uint32_t 4 1 42 100 (by decide)).1.2.1

/-- C11: for every `N ≤ max(I)/2` the mask loop of the `eytzinger_array_bfpm` constructor
ends; the values of `mask` are `1, 2, ..., 2^k`, none of them and no doubling exceeds
`max(I)`, and the constructor leaves `mask = 2^k - 1`, where `2^k` is the smallest power of
two strictly greater than `N` and `2^k - 1` the smallest value of this form that is at
least `N`. -/
theorem mask_is_smallest_all_ones {α : Type} (I : IndexType) (a0 : List α) (n : Nat)
    (hb : 0 < I.bits) (hn : n ≤ I.max / 2) (hlen : n ≤ a0.length) :
    ∃ k, mask_loop I n (n + 2) 1 = some (2 ^ k) ∧
      mask_trace I n (n + 2) 1 = (List.range (k + 1)).map (fun c => 2 ^ c) ∧
      (∀ m ∈ mask_trace I n (n + 2) 1, m ≤ I.max ∧ (m ≤ n → m * 2 ≤ I.max)) ∧
      (∃ B, eytzinger_array_bfpm.build I a0 n = Outcome.ok B ∧ B.base.n = n ∧
        B.mask = 2 ^ k - 1) ∧
      n < 2 ^ k ∧ (∀ j, n < 2 ^ j → k ≤ j) ∧
      n ≤ 2 ^ k - 1 ∧ (∀ j, n ≤ 2 ^ j - 1 → 2 ^ k - 1 ≤ 2 ^ j - 1) := by
  have hk : n < 2 ^ n.size := Nat.lt_size_self n
  have hmin : ∀ j, n < 2 ^ j → n.size ≤ j := fun j hj => Nat.size_le.mpr hj
  have hbelow : ∀ c, c < n.size → 2 ^ c ≤ n := fun c hc => Nat.lt_size.mp hc
  have hfuel : n.size < n + 2 := by
    have : n.size ≤ n + 1 := Nat.size_le.mpr (lt_trans (Nat.lt_succ_self n) (Nat.lt_two_pow _))
    omega
  obtain ⟨e1, e2⟩ := mask_loop_run I n hn n.size (n + 2) 0 hfuel
    (fun c hc => by simpa using hbelow c hc) (by simpa using hk)
  simp only [pow_zero, Nat.zero_add] at e1 e2
  have hmax := max_lt_pow I
  have hone := one_le_max I hb
  have hpk : 2 ^ n.size ≤ I.max := by
    by_cases h0 : n.size = 0
    · rw [h0]; simpa using hone
    · obtain ⟨g, hg⟩ : ∃ g, n.size = g + 1 := ⟨n.size - 1, by omega⟩
      have := hbelow g (by omega)
      rw [hg, pow_succ]
      omega
  have hpos : 1 ≤ 2 ^ n.size := Nat.one_le_two_pow
  refine ⟨n.size, e1, e2, ?_, ?_, hk, hmin, by omega, ?_⟩
  · intro m hm
    rw [e2, List.mem_map] at hm
    obtain ⟨c, hc, rfl⟩ := hm
    rw [List.mem_range] at hc
    have : 2 ^ c ≤ 2 ^ n.size := Nat.pow_le_pow_right (by norm_num) (by omega)
    exact ⟨by omega, fun h => by omega⟩
  · obtain ⟨A, hA, hAn, _, _⟩ := build_spec I a0 n hn hlen
    refine ⟨⟨A, 2 ^ n.size - 1⟩, ?_, hAn, rfl⟩
    unfold eytzinger_array_bfpm.build
    rw [hA]
    simp only [hAn, e1]
    congr 2
    unfold IndexType.wrap
    have e : 2 ^ n.size + 2 ^ I.bits - 1 = 2 ^ n.size - 1 + 2 ^ I.bits := by omega
    rw [e, Nat.add_mod_right, Nat.mod_eq_of_lt (by omega)]
  · intro j hj
    have hpj : 1 ≤ 2 ^ j := Nat.one_le_two_pow
    have : 2 ^ n.size ≤ 2 ^ j := Nat.pow_le_pow_right (by norm_num) (hmin j (by omega))
    omega

theorem mask_is_smallest_all_ones_witness :
    ∃ k, mask_loop uint32_t 7 (7 + 2) 1 = some (2 ^ k) ∧
      mask_trace uint32_t 7 (7 + 2) 1 = (List.range (k + 1)).map (fun c => 2 ^ c) ∧
      (∀ m ∈ mask_trace uint32_t 7 (7 + 2) 1,
        m ≤ uint32_t.max ∧ (m ≤ 7 → m * 2 ≤ uint32_t.max)) ∧
      (∃ B, eytzinger_array_bfpm.build uint32_t [1, 3, 5, 7, 9, 11, 13] 7 = Outcome.ok B ∧
        B.base.n = 7 ∧ B.mask = 2 ^ k - 1) ∧
      7 < 2 ^ k ∧ (∀ j, 7 < 2 ^ j → k ≤ j) ∧
      7 ≤ 2 ^ k - 1 ∧ (∀ j, 7 ≤ 2 ^ j - 1 → 2 ^ k - 1 ≤ 2 ^ j - 1) :=
  mask_is_smallest_all_ones uint32_t [1, 3, 5, 7, 9, 11, 13] 7 (by decide) (by decide)
    (by decide)

/-- C12: for every `N ≤ max(I)/2` and every position `i < N`, the child indices `2i+1` and
`2i+2` are at most `max(I)`: computed in the index type they keep their value. -/
theorem child_indices_fit (I : IndexType) (n i : Nat) (hn : n ≤ I.max / 2) (hi : i < n) :
    2 * i + 1 ≤ I.max ∧ 2 * i + 2 ≤ I.max ∧
    I.wrap (2 * i + 1) = 2 * i + 1 ∧ I.wrap (2 * i + 2) = 2 * i + 2 ∧
    I.arith (2 * i + 1) = 2 * i + 1 ∧ I.arith (2 * i + 2) = 2 * i + 2 := by
  have hmax := max_lt_pow I
  exact ⟨by omega, by omega, I.wrap_left hn hi, I.wrap_right hn hi,
    I.arith_of_lt (by omega), I.arith_of_lt (by omega)⟩

theorem child_indices_fit_witness :
    2 * 126 + 1 ≤ uint8_t.max ∧ 2 * 126 + 2 ≤ uint8_t.max ∧
    uint8_t.wrap (2 * 126 + 1) = 2 * 126 + 1 ∧ uint8_t.wrap (2 * 126 + 2) = 2 * 126 + 2 ∧
    uint8_t.arith (2 * 126 + 1) = 2 * 126 + 1 ∧ uint8_t.arith (2 * 126 + 2) = 2 * 126 + 2 :=
  child_indices_fit uint8_t 127 126 (by decide) (by decide)

/-- C13: on every array of `N` keys and for every query key, the loop of each search
strategy ends after at most `⌈log₂(N+1)⌉` iterations: that much fuel (and the final test)
gives the result, at most that many of the positions tested are below `N`, and after `k`
iterations the position is at least `2^k - 1`. -/
theorem search_loops_logarithmic {α : Type} [LinearOrder α] (I : IndexType)
    (A : eytzinger_array α) (hint : Nat → Option Nat) (x : α) (hn : A.n ≤ I.max / 2)
    (hf : A.Filled) :
    (∃ r, branchy_loop I A x (Nat.clog 2 (A.n + 1) + 1) 0 = some r ∧
      branchy_loop I A x (A.n + 1) 0 = some r ∧
      (branchy_positions I A x (A.n + 1) 0).getLast? = some r.position) ∧
    (∃ e hs, branchfree_loop I A hint x (Nat.clog 2 (A.n + 1) + 1) 0 [] = some (e, hs) ∧
      branchfree_loop I A hint x (A.n + 1) 0 [] = some (e, hs) ∧
      (branchfree_positions I A x (A.n + 1) 0).getLast? = some e) ∧
    ((branchy_positions I A x (A.n + 1) 0).filter (fun p => decide (p < A.n))).length ≤
      Nat.clog 2 (A.n + 1) ∧
    ((branchfree_positions I A x (A.n + 1) 0).filter (fun p => decide (p < A.n))).length ≤
      Nat.clog 2 (A.n + 1) ∧
    (∀ k p, (branchy_positions I A x (A.n + 1) 0)[k]? = some p → 2 ^ k - 1 ≤ p) ∧
    (∀ k p, (branchfree_positions I A x (A.n + 1) 0)[k]? = some p → 2 ^ k - 1 ≤ p) := by
  have hclog : A.n + 1 ≤ 2 ^ (0 + Nat.clog 2 (A.n + 1)) := by
    rw [Nat.zero_add]; exact Nat.le_pow_clog (by norm_num) _
  have hle := clog_le_self A.n
  obtain ⟨d, hd⟩ : ∃ d, A.n + 1 = Nat.clog 2 (A.n + 1) + 1 + d :=
    ⟨A.n - Nat.clog 2 (A.n + 1), by omega⟩
  have hy := branchy_positions_ge I A x hn (A.n + 1) 0 0
  have hb := branchfree_positions_ge I A x hn (A.n + 1) 0 0
  have hcount : ∀ k p, 2 ^ k - 1 ≤ p → decide (p < A.n) = true → k < Nat.clog 2 (A.n + 1) := by
    intro k p h1 h2
    have h2 : p < A.n := of_decide_eq_true h2
    by_contra hc
    have := (Nat.le_pow_iff_clog_le (by norm_num : 1 < 2)).mpr (not_lt.mp hc)
    omega
  refine ⟨?_, ?_, ?_, ?_, ?_, ?_⟩
  · obtain ⟨r, e1, _⟩ := branchy_loop_within I A x hn hf (Nat.clog 2 (A.n + 1))
      (Nat.clog 2 (A.n + 1) + 1) 0 0 (by simp) hclog (by omega)
    obtain ⟨r2, e2, e3⟩ := branchy_loop_within I A x hn hf (Nat.clog 2 (A.n + 1))
      (A.n + 1) 0 0 (by simp) hclog (by omega)
    have := branchy_loop_mono I A x _ d 0 r e1
    rw [← hd, e2] at this
    cases this
    exact ⟨r, e1, e2, e3⟩
  · obtain ⟨e, hs, e1, _⟩ := branchfree_loop_within I A hint x hn hf (Nat.clog 2 (A.n + 1))
      (Nat.clog 2 (A.n + 1) + 1) 0 0 [] (by simp) hclog (by omega)
    obtain ⟨e', hs', e2, e3⟩ := branchfree_loop_within I A hint x hn hf
      (Nat.clog 2 (A.n + 1)) (A.n + 1) 0 0 [] (by simp) hclog (by omega)
    have := branchfree_loop_mono I A hint x _ d 0 [] (e, hs) e1
    rw [← hd, e2] at this
    cases this
    exact ⟨e, hs, e1, e2, e3⟩
  · exact length_filter_le_of_index (fun k p h1 h2 =>
      hcount k p (by simpa using hy k p (by simp) h1) h2)
  · exact length_filter_le_of_index (fun k p h1 h2 =>
      hcount k p (by simpa using hb k p (by simp) h1) h2)
  · intro k p h; simpa using hy k p (by simp) h
  · intro k p h; simpa using hb k p (by simp) h

theorem search_loops_logarithmic_witness :
    ((branchy_positions uint32_t
        (⟨[some 7, some 3, some 11, some 1, some 5, some 9, some 13], 7⟩ : eytzinger_array Nat)
        6 (7 + 1) 0).filter (fun p => decide (p < 7))).length ≤ Nat.clog 2 (7 + 1) :=
  (search_loops_logarithmic uint32_t
    (⟨[some 7, some 3, some 11, some 1, some 5, some 9, some 13], 7⟩ : eytzinger_array Nat)
    (fun _ => none) 6 (by decide) (filled_of_keys [7, 3, 11, 1, 5, 9, 13])).2.2.1

/-- C14: for `N ≤ max(I)/2`, an input with at least `N` elements and a buffer of `N` cells,
`copy_data(a0, 0)` returns the input advanced by `N` elements; its assignments read the
first `N` elements in their order, one each, and write the positions of `[0, N)`, each once;
the resulting buffer holds what was written and is the same for every input with these
first `N` elements and every initial content of the buffer. -/
theorem copy_data_single_pass {α : Type} (I : IndexType) (n : Nat) (a0 : List α)
    (b : List (Option α)) (hn : n ≤ I.max / 2) (hlen : n ≤ a0.length) (hb : b.length = n) :
    ∃ b1 log, copy_data_log I n (n + 1) a0 b 0 [] = some (a0.drop n, b1, log) ∧
      copy_data I n (n + 1) a0 b 0 = some (a0.drop n, b1) ∧
      log.map Prod.snd = a0.take n ∧
      (log.map Prod.fst).Perm (List.range n) ∧
      b1.length = n ∧
      (∀ e ∈ log, b1[e.1]? = some (some e.2)) ∧
      (∀ (a0' : List α) (b' : List (Option α)), a0'.take n = a0.take n → b'.length = n →
        ∃ rest, copy_data I n (n + 1) a0' b' 0 = some (rest, b1)) := by
  have hP := length_inorder_positions n
  obtain ⟨b1, e1, l1, _, m1⟩ := copy_data_spec I n hn (n + 1) 0 a0 b (by omega) hb
    (by rw [hP]; exact hlen)
  obtain ⟨b2, e2⟩ := copy_data_log_spec I n hn (n + 1) 0 a0 b [] (by omega)
    (by rw [hP]; exact hlen)
  rw [hP] at e1 m1 e2
  have hsame : b2 = b1 := by
    have h := copy_data_log_erase I n (n + 1) a0 b 0 []
    rw [e2, e1] at h
    simp only [Option.map_some', Option.some.injEq, Prod.mk.injEq] at h
    exact h.2
  subst hsame
  have hTlen : (a0.take n).length = n := by rw [List.length_take]; omega
  have hzip : (inorder_positions n 0).zip a0 = (inorder_positions n 0).zip (a0.take n) := by
    have h := zip_take_length (inorder_positions n 0) a0
    rw [hP] at h
    exact h.symm
  have hfst : ((inorder_positions n 0).zip a0).map Prod.fst = inorder_positions n 0 := by
    rw [hzip]; exact List.map_fst_zip _ _ (by rw [hP, hTlen])
  have hsnd : ((inorder_positions n 0).zip a0).map Prod.snd = a0.take n := by
    rw [hzip]; exact List.map_snd_zip _ _ (by rw [hP, hTlen])
  refine ⟨b2, (inorder_positions n 0).zip a0, by simpa using e2, e1, hsnd, ?_, l1, ?_, ?_⟩
  · rw [hfst]; exact inorder_positions_perm n
  · have h : ((inorder_positions n 0).zip a0).map (fun e => b2[e.1]?) =
        ((inorder_positions n 0).zip a0).map (fun e => some (some e.2)) := by
      have h1 : ((inorder_positions n 0).zip a0).map (fun e => b2[e.1]?) =
          (((inorder_positions n 0).zip a0).map Prod.fst).map (fun p => b2[p]?) := by
        rw [List.map_map]; rfl
      have h2 : ((inorder_positions n 0).zip a0).map (fun e => some (some e.2)) =
          (((inorder_positions n 0).zip a0).map Prod.snd).map (fun v => some (some v)) := by
        rw [List.map_map]; rfl
      rw [h1, h2, hfst, hsnd, m1]
    exact fun e he => List.map_inj_left.mp h e he
  · intro a0' b' htake hb'
    have hlen' : n ≤ a0'.length := by
      have := congrArg List.length htake
      rw [List.length_take, List.length_take] at this
      omega
    obtain ⟨b3, e3, l3, _, m3⟩ := copy_data_spec I n hn (n + 1) 0 a0' b' (by omega) hb'
      (by rw [hP]; exact hlen')
    rw [hP] at e3 m3
    refine ⟨a0'.drop n, ?_⟩
    rw [e3]
    congr 2
    apply List.ext_getElem?
    intro p
    by_cases hp : p < n
    · have hmem := mem_inorder_positions_zero.mpr hp
      have h := m3.trans ((congrArg (List.map fun v => some (some v)) htake).trans m1.symm)
      exact List.map_inj_left.mp h p hmem
    · rw [List.getElem?_eq_none (by omega), List.getElem?_eq_none (by omega)]

theorem copy_data_single_pass_witness :
    ∃ b1 log, copy_data_log uint32_t 3 (3 + 1) [10, 20, 30, 40] [none, none, none] 0 [] =
        some ([10, 20, 30, 40].drop 3, b1, log) ∧
      copy_data uint32_t 3 (3 + 1) [10, 20, 30, 40] [none, none, none] 0 =
        some ([10, 20, 30, 40].drop 3, b1) ∧
      log.map Prod.snd = [10, 20, 30, 40].take 3 ∧
      (log.map Prod.fst).Perm (List.range 3) ∧
      b1.length = 3 ∧
      (∀ e ∈ log, b1[e.1]? = some (some e.2)) ∧
      (∀ (a0' : List Nat) (b' : List (Option Nat)), a0'.take 3 = [10, 20, 30, 40].take 3 →
        b'.length = 3 → ∃ rest, copy_data uint32_t 3 (3 + 1) a0' b' 0 = some (rest, b1)) :=
  copy_data_single_pass uint32_t 3 [10, 20, 30, 40] [none, none, none] (by decide) (by decide)
    (by decide)

/-- C15: in the array built from a sorted input, for every position `i < N` every key stored
in the subtree rooted at `2i+1` is at most `a[i]` and every key stored in the subtree rooted
at `2i+2` is at least `a[i]`, strictly so when the input keys are strictly increasing; every
cell holds a key. -/
theorem built_array_is_search_tree {α : Type} [LinearOrder α] (I : IndexType) (a0 : List α)
    (A : eytzinger_array α) (hb : eytzinger_array.build I a0 a0.length = Outcome.ok A)
    (hs : a0.Pairwise (fun u v => u ≤ v)) :
    A.n = a0.length ∧
    (∀ i, i < A.n → ∃ v, A.read i = some v ∧
      (∀ p u, p < A.n → InSubtree (2 * i + 1) p → A.read p = some u → u ≤ v) ∧
      (∀ p u, p < A.n → InSubtree (2 * i + 2) p → A.read p = some u → v ≤ u) ∧
      (a0.Pairwise (fun u v => u < v) →
        (∀ p u, p < A.n → InSubtree (2 * i + 1) p → A.read p = some u → u < v) ∧
        (∀ p u, p < A.n → InSubtree (2 * i + 2) p → A.read p = some u → v < u))) := by
  obtain ⟨_, hA, _, hl⟩ := build_ok I a0 a0.length A (le_refl _) hb
  rw [List.take_length] at hl
  refine ⟨hA, ?_⟩
  intro i hi
  obtain ⟨v, hv⟩ := hl.filled i hi
  refine ⟨v, hv, ?_, ?_, ?_⟩
  · intro p u hp hsub hu
    exact (hl.subtree_rel hs i p hi hp u v hu hv).1 hsub
  · intro p u hp hsub hu
    exact (hl.subtree_rel hs i p hi hp u v hu hv).2 hsub
  · intro hinc
    constructor
    · intro p u hp hsub hu
      exact (hl.subtree_rel hinc i p hi hp u v hu hv).1 hsub
    · intro p u hp hsub hu
      exact (hl.subtree_rel hinc i p hi hp u v hu hv).2 hsub

theorem built_array_is_search_tree_witness :
    ∃ v, (⟨[some 7, some 3, some 11, some 1, some 5, some 9, some 13], 7⟩ :
        eytzinger_array Nat).read 0 = some v ∧
      (∀ p u, p < 7 → InSubtree (2 * 0 + 1) p →
        (⟨[some 7, some 3, some 11, some 1, some 5, some 9, some 13], 7⟩ :
          eytzinger_array Nat).read p = some u → u < v) ∧
      (∀ p u, p < 7 → InSubtree (2 * 0 + 2) p →
        (⟨[some 7, some 3, some 11, some 1, some 5, some 9, some 13], 7⟩ :
          eytzinger_array Nat).read p = some u → v < u) := by
  obtain ⟨v, h1, _, _, h4⟩ := (built_array_is_search_tree uint32_t [1, 3, 5, 7, 9, 11, 13]
    ⟨[some 7, some 3, some 11, some 1, some 5, some 9, some 13], 7⟩ (by decide)
    (by decide)).2 0 (by decide)
  exact ⟨v, h1, (h4 (by decide)).1, (h4 (by decide)).2⟩

/-- C16, failing input: with `I` the 64-bit unsigned type and `N = 3 * 2^31 - 1`, the path
that goes left at the root and then right 32 times is an exit path, ending at
`3 * 2^32 - 2`; its last left step was taken at the root, position 0, and the index recovery
returns `3 * 2^32 - 2`.  With `I` the 32-bit unsigned type and `N = 2^31 - 1`, the path of 31
right steps is an exit path without a left step, ending at `2^32 - 2`, and the index
recovery returns `2^32 - 2`, not `N`. -/
theorem index_recovery_misses_last_left :
    (IsExitPath (3 * 2 ^ 31 - 1) (Step.left :: List.replicate 32 Step.right) ∧
      walk 0 (Step.left :: List.replicate 32 Step.right) = 3 * 2 ^ 32 - 2 ∧
      last_left_node 0 (Step.left :: List.replicate 32 Step.right) none = some 0 ∧
      index_recovery uint64_t (3 * 2 ^ 31 - 1) (3 * 2 ^ 32 - 2) = some (3 * 2 ^ 32 - 2)) ∧
    (IsExitPath (2 ^ 31 - 1) (List.replicate 31 Step.right) ∧
      walk 0 (List.replicate 31 Step.right) = 2 ^ 32 - 2 ∧
      last_left_node 0 (List.replicate 31 Step.right) none = none ∧
      index_recovery uint32_t (2 ^ 31 - 1) (2 ^ 32 - 2) = some (2 ^ 32 - 2)) := by
  refine ⟨⟨by decide, by decide, by decide, ?_⟩, ⟨by decide, by decide, by decide, ?_⟩⟩
  · exact index_recovery_of_ones uint64_t _ _ (by decide) (by decide)
  · exact index_recovery_of_ones uint32_t _ _ (by decide) (by decide)

/-- C17, counterexample: on the array built from `[1,3,5,7,9,11,13]` the search for 10
leaves its loop at position 12 and returns 2; shifting `12 + 1 = 0b1101` right by its one
trailing one bit gives 6, subtracting 1 gives `j = 5`, and `j - 1` is 4. -/
theorem index_recovery_differs_from_description :
    branchy_loop uint32_t
        (⟨[some 7, some 3, some 11, some 1, some 5, some 9, some 13], 7⟩ : eytzinger_array Nat)
        10 (7 + 1) 0 = some (LoopEnd.left_loop 12) ∧
    search uint32_t
        (⟨[some 7, some 3, some 11, some 1, some 5, some 9, some 13], 7⟩ : eytzinger_array Nat)
        10 = some 2 ∧
    index_recovery uint32_t 7 12 = some 2 ∧
    trailing_ones (12 + 1) = 1 ∧
    index_recovery_as_described uint32_t 7 12 = 4 := by
  decide

/-- C17, amended: at the exit position `i` of a search loop on an array small enough for the
index recovery to be exact, `__builtin_ffs(~(i+1))` is `t + 1`, with `t` the number of
trailing one bits of `i+1`; the recovery shifts `i+1` right by `t + 1` to obtain `j`, and
returns `N` if `j == 0` and `j-1` otherwise. -/
theorem index_recovery_shifts_past_zero_bit (I : IndexType) (n i : Nat) (hn : n ≤ I.max / 2)
    (hi : i ≤ 2 * n) (hsafe : recovery_safe I n) :
    builtin_ffs (I.bnot (I.arith (i + 1))) = trailing_ones (i + 1) + 1 ∧
    index_recovery I n i = some (index_recovery_shift n i) ∧
    index_recovery_shift n i =
      (if (i + 1) / 2 ^ (trailing_ones (i + 1) + 1) = 0 then n
        else (i + 1) / 2 ^ (trailing_ones (i + 1) + 1) - 1) := by
  obtain ⟨hlt, hv⟩ := exit_position_bounds I n i hn hi
  have h32 : (i + 1) % 2 ^ 32 ≠ 2 ^ 32 - 1 := by
    rcases hsafe with h | ⟨_, h⟩
    · rw [Nat.mod_eq_of_lt (by omega)]; omega
    · rw [Nat.mod_eq_of_lt (by omega)]; omega
  have harith : I.arith (i + 1) = i + 1 := Nat.mod_eq_of_lt hv
  obtain ⟨hffs, ht⟩ := builtin_ffs_bnot_eq I hv h32
  refine ⟨by rw [harith]; exact hffs, ?_, rfl⟩
  have hub : ¬ I.arithBits ≤ trailing_ones (i + 1) + 1 := by
    intro hle
    have h1 := I.arithBits_ge
    have h2 := I.le_arithBits
    have ht31 : trailing_ones (i + 1) = 31 := by omega
    obtain ⟨t, _, _, h3⟩ := builtin_ffs_bnot I hv h32
    have := trailing_ones_of_bits t (i + 1) h3
    rw [ht31] at this
    subst this
    have hmod := Nat.mod_le (i + 1) (2 ^ (31 + 1))
    rcases hsafe with h | ⟨h, _⟩
    · omega
    · omega
  have hq : (i + 1) / 2 ^ (trailing_ones (i + 1) + 1) ≤ i := by
    have : (i + 1) / 2 ^ (trailing_ones (i + 1) + 1) ≤ (i + 1) / 2 :=
      Nat.div_le_div_left (by rw [pow_succ]; have := Nat.one_le_two_pow (n := trailing_ones (i + 1)); omega)
        (by norm_num)
    omega
  unfold index_recovery index_recovery_shift
  simp only [harith, hffs, hub, if_false]
  rw [I.wrap_of_lt (by omega)]
  by_cases hz : (i + 1) / 2 ^ (trailing_ones (i + 1) + 1) = 0
  · simp [hz]
  · simp only [hz, if_false]
    rw [I.wrap_of_lt (by omega)]

theorem index_recovery_shifts_past_zero_bit_witness :
    builtin_ffs (uint32_t.bnot (uint32_t.arith (12 + 1))) = trailing_ones (12 + 1) + 1 ∧
    index_recovery uint32_t 7 12 = some (index_recovery_shift 7 12) ∧
    index_recovery_shift 7 12 =
      (if (12 + 1) / 2 ^ (trailing_ones (12 + 1) + 1) = 0 then 7
        else (12 + 1) / 2 ^ (trailing_ones (12 + 1) + 1) - 1) :=
  index_recovery_shifts_past_zero_bit uint32_t 7 12 (by decide) (by decide)
    (Or.inl (by decide))

/-- C18: on every array, whatever its contents, and for every query key,
`branchfree_prefetch_search` and `eytzinger_array_bfpm::search` return the value that
`branchfree_search` returns, whatever the mask: the prefetches only show in the list of
operands handed to `__builtin_prefetch`. -/
theorem prefetch_does_not_change_result {α : Type} [LinearOrder α] (I : IndexType)
    (sizeofT : Nat) (B : eytzinger_array_bfpm α) (x : α) :
    branchfree_prefetch_search I sizeofT B.base x = branchfree_search I sizeofT B.base x ∧
    eytzinger_array_bfpm.search I sizeofT B x = branchfree_search I sizeofT B.base x :=
  branchfree_strategies_eq I sizeofT B x

/-- C19, failing input: with `I` the 64-bit unsigned type, on the array built from the
sorted input `0, 1, ..., N-1` of `N = 2^31 - 1` keys, the branch-free search for `2^31 - 1`,
which is above every stored key, returns `2^32 - 2` and not `N`. -/
theorem branchfree_search_above_all_uint64 :
    ∃ A, eytzinger_array.build uint64_t (List.range (2 ^ 31 - 1)) (2 ^ 31 - 1) =
        Outcome.ok A ∧ A.n = 2 ^ 31 - 1 ∧
      (∀ v ∈ List.range (2 ^ 31 - 1), v < 2 ^ 31 - 1) ∧
      branchfree_search uint64_t 8 A (2 ^ 31 - 1) = some (2 ^ 32 - 2) := by
  have hn : 2 ^ 31 - 1 ≤ uint64_t.max / 2 := by decide
  obtain ⟨A, hb, hA, _, hl⟩ := build_spec uint64_t (List.range (2 ^ 31 - 1))
    (2 ^ 31 - 1) hn (by rw [List.length_range])
  have hrec : index_recovery uint64_t A.n (2 ^ (31 + 1) - 2) = some (2 ^ 32 - 2) :=
    index_recovery_of_ones uint64_t _ _ (by decide) (by decide)
  have h := search_above_all uint64_t 8 0 A (2 ^ 31 - 1) (by rw [hA]; exact hn) hl.filled
    (fun p hp u hu => by
      obtain ⟨v, hv, e⟩ := hl.read_mem hp
      rw [e] at hu
      cases hu
      exact List.mem_range.mp (List.mem_of_mem_take hv))
    31 (fun j hj => by rw [hA]; exact pow_chain_lt 31 j hj) (by rw [hA]; decide)
  rw [hrec] at h
  exact ⟨A, hb, hA, fun v hv => List.mem_range.mp hv, h.2.1⟩

/-- C20: for every `N ≤ max(I)/2` and every query key, a search loop that is left without an
early return is left at a position `i` with `N ≤ i ≤ 2N`; for an index type whose maximum is
odd, `i + 1 ≤ max(I)`, and the `i+1` of the index recovery keeps its value. -/
theorem exit_position_in_range {α : Type} [LinearOrder α] (I : IndexType)
    (A : eytzinger_array α) (x : α) (hn : A.n ≤ I.max / 2) :
    (∀ fuel e, branchy_loop I A x fuel 0 = some (LoopEnd.left_loop e) →
      A.n ≤ e ∧ e ≤ 2 * A.n ∧
        (I.max % 2 = 1 → e + 1 ≤ I.max ∧ I.arith (e + 1) = e + 1 ∧ I.wrap (e + 1) = e + 1)) ∧
    (∀ hint fuel e hs, branchfree_loop I A hint x fuel 0 [] = some (e, hs) →
      A.n ≤ e ∧ e ≤ 2 * A.n ∧
        (I.max % 2 = 1 → e + 1 ≤ I.max ∧ I.arith (e + 1) = e + 1 ∧ I.wrap (e + 1) = e + 1)) := by
  have hmax := max_lt_pow I
  have key : ∀ e, e ≤ 2 * A.n → I.max % 2 = 1 → e + 1 ≤ I.max ∧ I.arith (e + 1) = e + 1 ∧
      I.wrap (e + 1) = e + 1 := by
    intro e he hodd
    have h1 : e + 1 ≤ I.max := by omega
    exact ⟨h1, I.arith_of_lt (by omega), I.wrap_of_le_max h1⟩
  constructor
  · intro fuel e h
    obtain ⟨h1, h2⟩ := (branchy_loop_exit_bounds I A x hn fuel 0 (by omega)).1 e h
    exact ⟨h1, h2, key e h2⟩
  · intro hint fuel e hs h
    obtain ⟨h1, h2⟩ := branchfree_loop_exit_bounds I A hint x hn fuel 0 [] e hs (by omega) h
    exact ⟨h1, h2, key e h2⟩

theorem exit_position_in_range_witness :
    7 ≤ 10 ∧ 10 ≤ 2 * 7 ∧
      (uint8_t.max % 2 = 1 → 10 + 1 ≤ uint8_t.max ∧ uint8_t.arith (10 + 1) = 10 + 1 ∧
        uint8_t.wrap (10 + 1) = 10 + 1) :=
  (exit_position_in_range uint8_t
    (⟨[some 7, some 3, some 11, some 1, some 5, some 9, some 13], 7⟩ : eytzinger_array Nat) 6
    (by decide)).1 8 10 (by decide)

end fbs
